import Mathlib

/-!
Shallow embedding of `src/ae-scripts/batch-asset-replacer.jsx` (v2.1).

The After Effects document model is embedded as a finite store of items
(compositions and footage) addressed by numeric identity.  A composition
owns an ordered list of layers; a layer either carries text content, a
source reference to another item (sub-composition or footage), or other
content.  All functions of the script that the claims concern are
translated directly from the source:

* `parseCSVLine`, `parseCSV`, `detectLanguages`  (lines 59-115)
* `findComp` (119-125), `findLayerDeep` (140-157)
* `discoverAllSubComps` (161-182)
* `replaceText` (186-197), `replaceFootage` (199-208)
* `duplicateFullTree` (216-289) including the internal topological sort
* `main` (293-467), modelled as `runMain` without the dialog glue
  (the dialogs, folder items and log output have no effect on the
  project state the claims speak about; the user confirmation is taken
  as accepted).

Recursions that are unbounded in ExtendScript (`findLayerDeep`,
`discoverAllSubComps`) are given explicit fuel; the fuel chosen at the
call sites is proved (or shown on concrete inputs) to be large enough.
The `while` loop of the topological sort has an explicit iteration
bound `n*n+1` in the source, which is kept verbatim.
-/

/-- Content of a layer: text content (TextLayer), a source item
(AVLayer referencing footage or a sub-comp), or anything else. -/
inductive LayerContent where
  | text (value : String)
  | source (id : Nat)
  | other
deriving DecidableEq, Repr

/-- A layer of a composition: a display name plus its content. -/
structure Layer where
  name : String
  content : LayerContent
deriving DecidableEq, Repr

/-- A project item: a composition (name, parent-folder tag, layers) or
a footage item (file path). -/
inductive Item where
  | comp (name : String) (folder : String) (layers : List Layer)
  | footage (path : String)
deriving DecidableEq, Repr

/-- The After Effects project: an identity-addressed item store plus a
fresh-identity counter.  New items are appended, matching the host's
collection order. -/
structure Project where
  items : List (Nat × Item)
  nextId : Nat
deriving DecidableEq, Repr

def lookupItem (p : Project) (i : Nat) : Option Item :=
  p.items.lookup i

def itemLayers : Item → List Layer
  | Item.comp _ _ ls => ls
  | Item.footage _ => []

def layersOf (p : Project) (i : Nat) : List Layer :=
  match lookupItem p i with
  | some it => itemLayers it
  | none => []

def compName (p : Project) (i : Nat) : String :=
  match lookupItem p i with
  | some (Item.comp n _ _) => n
  | _ => ""

def isCompB : Item → Bool
  | Item.comp _ _ _ => true
  | Item.footage _ => false

/-- `instanceof CompItem` on an item id. -/
def isCompId (p : Project) (i : Nat) : Bool :=
  match lookupItem p i with
  | some it => isCompB it
  | none => false

def compIds (p : Project) : List Nat :=
  p.items.filterMap (fun e => if isCompB e.2 then some e.1 else none)

/-- `layer.source && layer.source instanceof CompItem`: the id of the
sub-composition a layer references, if any. -/
def compSourceOf (p : Project) (l : Layer) : Option Nat :=
  match l.content with
  | LayerContent.source s => if isCompId p s then some s else none
  | _ => none

def compSources (p : Project) (ls : List Layer) : List Nat :=
  ls.filterMap (compSourceOf p)

def addItem (p : Project) (it : Item) : Project × Nat :=
  ({ items := p.items ++ [(p.nextId, it)], nextId := p.nextId + 1 }, p.nextId)

def updateItem (p : Project) (i : Nat) (f : Item → Item) : Project :=
  { p with items := p.items.map (fun e => if e.1 = i then (e.1, f e.2) else e) }

def modifyNth {α : Type} (f : α → α) : Nat → List α → List α
  | _, [] => []
  | 0, a :: as => f a :: as
  | n+1, a :: as => a :: modifyNth f n as

/-- Set the content of layer `i` of composition `c`. -/
def setLayerContent (p : Project) (c : Nat) (i : Nat) (nc : LayerContent) : Project :=
  updateItem p c (fun it =>
    match it with
    | Item.comp n f ls => Item.comp n f (modifyNth (fun l => { l with content := nc }) i ls)
    | x => x)

/-- JavaScript-object style association update: overwrite the value of
an existing key in place, otherwise append the new binding. -/
def jsSet {α : Type} (m : List (String × α)) (k : String) (v : α) : List (String × α) :=
  if (m.lookup k).isSome then m.map (fun e => if e.1 = k then (k, v) else e)
  else m ++ [(k, v)]

-- ─── Utilities (source lines 53-55) ─────────────────────────

def isWsChar (c : Char) : Bool :=
  c = ' ' || c = '\t' || c = '\n' || c = '\r' || c = '\x0b' || c = '\x0c'

/-- `str.replace(/^\s+|\s+$/g, "")`. -/
def trim (s : String) : String :=
  String.mk (((s.data.dropWhile isWsChar).reverse.dropWhile isWsChar).reverse)

def jsToLower (s : String) : String := String.mk (s.data.map Char.toLower)

def jsToUpper (s : String) : String := String.mk (s.data.map Char.toUpper)

-- ─── CSV parsing (source lines 59-115) ──────────────────────

/-- The character loop of `parseCSVLine` (lines 64-79): `inQ` is
`inQuotes`, `cur` the current field, `acc` the fields already split. -/
def csvLineGo : List Char → Bool → List Char → List (List Char) → List (List Char)
  | [], _, cur, acc => acc ++ [cur]
  | '"' :: '"' :: rest2, true, cur, acc => csvLineGo rest2 true (cur ++ ['"']) acc
  | '"' :: rest, true, cur, acc => csvLineGo rest false cur acc
  | '"' :: rest, false, cur, acc => csvLineGo rest true cur acc
  | ',' :: rest, inQ, cur, acc =>
      if inQ then csvLineGo rest true (cur ++ [',']) acc
      else csvLineGo rest false [] (acc ++ [cur])
  | c :: rest, inQ, cur, acc => csvLineGo rest inQ (cur ++ [c]) acc

def parseCSVLine (line : String) : List String :=
  (csvLineGo line.data false [] []).map String.mk

/-- `csvString.split(/\r?\n/)` (line 85). -/
def splitLinesGo : List Char → List Char → List (List Char)
  | [], cur => [cur]
  | '\r' :: '\n' :: rest, cur => cur :: splitLinesGo rest []
  | '\n' :: rest, cur => cur :: splitLinesGo rest []
  | c :: rest, cur => splitLinesGo rest (cur ++ [c])

def splitLines (s : String) : List String :=
  (splitLinesGo s.data []).map String.mk

/-- A parsed manifest row: header name to field value, in header order
(JavaScript object insertion order). -/
abbrev Row := List (String × String)

/-- Row construction of lines 94-97. -/
def buildRow (headers : List String) (values : List String) : Row :=
  (List.range headers.length).foldl
    (fun r j => jsSet r (headers.getD j "")
      (if j < values.length then trim (values.getD j "") else "")) []

structure CSVData where
  headers : List String
  rows : List Row
deriving DecidableEq, Repr

/-- `parseCSV` (lines 84-102). -/
def parseCSV (csvString : String) : CSVData :=
  let lines := splitLines csvString
  let headers := (parseCSVLine (lines.headD "")).map trim
  let rows := (lines.drop 1).filterMap (fun ln =>
    let l := trim ln
    if l = "" then none else some (buildRow headers (parseCSVLine l)))
  ⟨headers, rows⟩

def reservedColumns : List String := ["comp_name", "layer_name", "type"]

/-- `detectLanguages` (lines 104-115). -/
def detectLanguages (headers : List String) : List String :=
  headers.filter (fun h => !(reservedColumns.contains (jsToLower h)) && h != "")

/-- The claim's reading of locale detection: keep every header not
literally equal to a reserved column name, in order.  Used only to
compare against the source's `detectLanguages`. -/
def detectLocalesClaimed (headers : List String) : List String :=
  headers.filter (fun h => !(reservedColumns.contains h))

-- ─── Project helpers (source lines 119-136) ─────────────────

/-- `findComp` (lines 119-125): first composition with the given name. -/
def findComp (p : Project) (name : String) : Option Nat :=
  p.items.findSome? (fun e =>
    match e.2 with
    | Item.comp n _ _ => if n = name then some e.1 else none
    | _ => none)

-- ─── Deep layer search (source lines 140-157) ───────────────

/-- The body of `findLayerDeep` (lines 140-157): the shallow pass
over the direct layers first, then the recursive pass (via `rec`)
into each sub-composition in layer order. -/
def findDeepStep (p : Project) (rec : Nat → String → Option (Nat × Nat))
    (c : Nat) (lname : String) : Option (Nat × Nat) :=
  match (layersOf p c).findIdx? (fun l => l.name == lname) with
  | some i => some (c, i)
  | none =>
    (layersOf p c).findSome? (fun l =>
      match compSourceOf p l with
      | some s => rec s lname
      | none => none)

/-- `findLayerDeep` (lines 140-157) with explicit fuel.  Returns the
found layer as (owning composition id, layer index). -/
def findLayerDeep (p : Project) : Nat → Nat → String → Option (Nat × Nat)
  | 0, _, _ => none
  | fuel+1, c, lname => findDeepStep p (findLayerDeep p fuel) c lname

-- ─── Comp tree discovery (source lines 161-182) ─────────────

/-- The layer loop of `discoverAllSubComps` (lines 164-179): walks
`ls`, pushing each not-yet-collected sub-comp and recursing (via
`rec`) into it. -/
def discoverStep (p : Project) (rec : List Layer → List Nat → List Nat) :
    List Layer → List Nat → List Nat
  | [], coll => coll
  | l :: ls, coll =>
    let coll' :=
      match compSourceOf p l with
      | some s => if coll.contains s then coll else rec (layersOf p s) (coll ++ [s])
      | none => coll
    discoverStep p rec ls coll'

/-- The recursion of `discoverAllSubComps` with explicit fuel; one
unit of fuel is used per descent into a sub-composition. -/
def discoverGo (p : Project) : Nat → List Layer → List Nat → List Nat
  | 0, _, coll => coll
  | fuel+1, ls, coll => discoverStep p (discoverGo p fuel) ls coll

/-- `discoverAllSubComps(comp)` with empty initial collection.  Depth
of the recursion is bounded by the number of compositions, so
`p.items.length + 1` units of fuel are always enough (proved below). -/
def discoverAllSubComps (p : Project) (c : Nat) : List Nat :=
  discoverGo p (p.items.length + 1) (layersOf p c) []

-- ─── Replacement (source lines 186-208) ─────────────────────

/-- `replaceText` (lines 186-197): succeeds only on a text layer. -/
def replaceText (p : Project) (c : Nat) (i : Nat) (newText : String) : Project × Bool :=
  match (layersOf p c).get? i with
  | some l =>
    match l.content with
    | LayerContent.text _ => (setLayerContent p c i (LayerContent.text newText), true)
    | _ => (p, false)
  | none => (p, false)

/-- `replaceFootage` (lines 199-208): checks the file exists (the file
system is the list `fs` of existing paths), imports the footage (a new
project item) and replaces the layer's source.  `replaceSource` throws
on a layer without a source, which the script catches, returning
false; the imported item stays in the project in that case. -/
def replaceFootage (p : Project) (fs : List String) (c : Nat) (i : Nat)
    (filePath : String) : Project × Bool :=
  if fs.contains filePath then
    let r := addItem p (Item.footage filePath)
    match (layersOf r.1 c).get? i with
    | some l =>
      match l.content with
      | LayerContent.source _ => (setLayerContent r.1 c i (LayerContent.source r.2), true)
      | _ => (r.1, false)
    | none => (r.1, false)
  else (p, false)

-- ─── Duplication engine (source lines 216-289) ──────────────

/-- `allChildrenDone` check of lines 235-248: every layer source that
is a composition of the discovered set has its name processed. -/
def childrenDone (p : Project) (all : List Nat) (processed : List String) (sc : Nat) : Bool :=
  (layersOf p sc).all (fun l =>
    match compSourceOf p l with
    | some s => if all.contains s then processed.contains (compName p s) else true
    | none => true)

/-- The body of the `for` loop at lines 231-254: skip an already
processed name, otherwise append the comp when its children are done. -/
def topoVisit (p : Project) (all : List Nat) (st : List Nat × List String) (sc : Nat) :
    List Nat × List String :=
  if st.2.contains (compName p sc) then st
  else if childrenDone p all st.2 sc then (st.1 ++ [sc], st.2 ++ [compName p sc])
  else st

/-- One full scan of the `for` loop at lines 231-254 over `all`,
threading (sortedComps, processed names). -/
def topoStep (p : Project) (all : List Nat) (st : List Nat × List String) :
    List Nat × List String :=
  all.foldl (topoVisit p all) st

/-- The `while` loop of lines 229-255, bounded by `maxIterations`. -/
def topoLoop (p : Project) (all : List Nat) : Nat → List Nat × List String → List Nat × List String
  | 0, st => st
  | fuel+1, st =>
    if st.1.length < all.length then topoLoop p all fuel (topoStep p all st) else st

/-- The internal topological sort of `duplicateFullTree` (lines
223-255), with the verbatim `maxIterations = n*n + 1` bound. -/
def topoSort (p : Project) (all : List Nat) : List Nat :=
  (topoLoop p all (all.length * all.length + 1) ([], [])).1

/-- The relink of lines 266-271 / 281-286 applied to one layer: if its
source is a composition whose name has a duplicate in the map, point
the layer at that duplicate. -/
def relinkLayer (p : Project) (dm : List (String × Nat)) (l : Layer) : Layer :=
  match l.content with
  | LayerContent.source s =>
    match lookupItem p s with
    | some (Item.comp sn _ _) =>
      match dm.lookup sn with
      | some d => { l with content := LayerContent.source d }
      | none => l
    | _ => l
  | _ => l

/-- Relink every layer of a composition item through the duplicate
map (the loop of lines 266-271 / 281-286). -/
def relinkItem (p' : Project) (dm : List (String × Nat)) : Item → Item
  | Item.comp n2 f2 ls2 => Item.comp n2 f2 (ls2.map (relinkLayer p' dm))
  | x => x

/-- Duplicate one composition (lines 258-271 for sub-comps, 274-286
for the master): clone, rename with the language suffix, move to
`folder`, record in the duplicate map, then relink the clone's layers
through the map (which already contains the clone itself). -/
def dupOne (suffix folder : String) (st : Project × List (String × Nat)) (origId : Nat) :
    Project × List (String × Nat) :=
  match lookupItem st.1 origId with
  | some (Item.comp n _ ls) =>
    let r := addItem st.1 (Item.comp (n ++ "_" ++ suffix) folder ls)
    let dm1 := jsSet st.2 n r.2
    (updateItem r.1 r.2 (relinkItem r.1 dm1), dm1)
  | _ => st

/-- `duplicateFullTree` (lines 216-289). -/
def duplicateFullTree (p : Project) (masterId : Nat) (suffix langFolder precompFolder : String) :
    Project × List (String × Nat) :=
  let all := discoverAllSubComps p masterId
  let sorted := topoSort p all
  let st := sorted.foldl (dupOne suffix precompFolder) (p, [])
  dupOne suffix langFolder st masterId

-- ─── Main (source lines 293-467) ────────────────────────────

structure RunStats where
  success : Nat
  skipped : Nat
  errors : Nat
deriving DecidableEq, Repr

structure RunState where
  proj : Project
  stats : RunStats
  errorLog : List String
deriving DecidableEq, Repr

def rowField (row : Row) (k : String) : String :=
  (row.lookup k).getD ""

/-- `lang.toLowerCase().replace(/[^a-z0-9]/g, "_")` (line 390). -/
def langSuffixOf (lang : String) : String :=
  String.mk ((jsToLower lang).data.map (fun c =>
    if ('a' ≤ c && c ≤ 'z') || ('0' ≤ c && c ≤ '9') then c else '_'))

/-- `lang.toUpperCase().replace(/[^A-Z0-9\-]/g, "_")` (line 391). -/
def langLabelOf (lang : String) : String :=
  String.mk ((jsToUpper lang).data.map (fun c =>
    if ('A' ≤ c && c ≤ 'Z') || ('0' ≤ c && c ≤ '9') || c = '-' then c else '_'))

/-- `(row["type"] || "text")` (line 412). -/
def effType (t : String) : String := if t = "" then "text" else t

/-- The dispatch of lines 434-436: footage/image go to
`replaceFootage`, everything else to `replaceText`. -/
def dispatchReplace (p : Project) (fs : List String) (ty : String) (c i : Nat)
    (value : String) : Project × Bool :=
  if ty = "footage" || ty = "image" then replaceFootage p fs c i value
  else replaceText p c i value

/-- Record a failure: `errors++`, with the message appended only while
the log holds fewer than 20 entries (lines 420-421, 428-429, 440-441). -/
def recordFail (st : RunState) (msg : String) : RunState :=
  { st with
    stats := { st.stats with errors := st.stats.errors + 1 }
    errorLog := if st.errorLog.length < 20 then st.errorLog ++ [msg] else st.errorLog }

/-- One iteration of the replacement loop (lines 408-443). -/
def applyRow (fs : List String) (allDupes : List (String × Nat)) (lang : String)
    (st : RunState) (row : Row) : RunState :=
  let cName := rowField row "comp_name"
  let lName := rowField row "layer_name"
  let ty := jsToLower (effType (rowField row "type"))
  let value := rowField row lang
  if value = "" then { st with stats := { st.stats with skipped := st.stats.skipped + 1 } }
  else
    match allDupes.lookup cName with
    | none => recordFail st ("[" ++ lang ++ "] Comp not found: '" ++ cName ++ "'")
    | some dupeMaster =>
      match findLayerDeep st.proj (st.proj.items.length + 1) dupeMaster lName with
      | none => recordFail st ("[" ++ lang ++ "] Layer '" ++ lName ++ "' not found in tree")
      | some ci =>
        let r := dispatchReplace st.proj fs ty ci.1 ci.2 value
        if r.2 then
          { st with proj := r.1, stats := { st.stats with success := st.stats.success + 1 } }
        else
          recordFail { st with proj := r.1 }
            ("[" ++ lang ++ "] Failed: '" ++ lName ++ "' in '" ++ compName r.1 ci.1 ++ "' (" ++ ty ++ ")")

/-- Unique master comp names in first-occurrence order (lines 313-322). -/
def collectMasters (rows : List Row) : List String :=
  rows.foldl (fun acc row =>
    let n := rowField row "comp_name"
    if acc.contains n then acc else acc ++ [n]) []

/-- Validation of lines 327-336: every master name must resolve to a
composition, otherwise the whole run aborts. -/
def resolveMasters (p : Project) (names : List String) : Option (List Nat) :=
  names.mapM (findComp p)

/-- One language pass (lines 388-444): duplicate every master's tree,
merge the duplicate maps, then run every manifest row. -/
def runLanguage (fs : List String) (masterIds : List Nat) (rows : List Row)
    (st : RunState) (lang : String) : RunState :=
  let suffix := langSuffixOf lang
  let dupd := masterIds.foldl (fun acc m =>
    let r := duplicateFullTree acc.1 m suffix (langLabelOf lang) "_PRECOMPS"
    (r.1, r.2.foldl (fun a e => jsSet a e.1 e.2) acc.2)) (st.proj, [])
  rows.foldl (applyRow fs dupd.2 lang) { st with proj := dupd.1 }

/-- `main` (lines 293-467) without the dialog glue: parse the CSV,
detect languages (abort leaving the project untouched when none),
resolve the master comps (abort when one is missing), then run every
language pass.  `fs` is the set of file paths that exist on disk. -/
def runMain (p : Project) (fs : List String) (csv : String) : RunState :=
  let data := parseCSV csv
  let languages := detectLanguages data.headers
  if languages = [] then ⟨p, ⟨0, 0, 0⟩, []⟩
  else
    match resolveMasters p (collectMasters data.rows) with
    | none => ⟨p, ⟨0, 0, 0⟩, []⟩
    | some masterIds => languages.foldl (runLanguage fs masterIds data.rows) ⟨p, ⟨0, 0, 0⟩, []⟩

-- ─── Well-formedness and graph predicates ───────────────────

def itemKeys (p : Project) : List Nat := p.items.map Prod.fst

def layerSrcBound (n : Nat) (l : Layer) : Bool :=
  match l.content with
  | LayerContent.source s => decide (s < n)
  | _ => true

/-- A well-formed project: distinct item identities, all bounded by the
fresh counter, and every layer source bounded as well.  Every host
project satisfies this. -/
def WFproj (p : Project) : Prop :=
  (itemKeys p).Nodup ∧
  ∀ e ∈ p.items, e.1 < p.nextId ∧ ∀ l ∈ itemLayers e.2, layerSrcBound p.nextId l = true

instance (p : Project) : Decidable (WFproj p) := by
  unfold WFproj; infer_instance

/-- `rank` certifies that the composition-reference graph of `p` is
acyclic: every reference edge strictly decreases the rank.  Host
composition trees always admit such a rank (nesting depth). -/
def RankOk (p : Project) (rank : Nat → Nat) : Prop :=
  ∀ a ∈ itemKeys p, ∀ b ∈ compSources p (layersOf p a), rank b < rank a

instance (p : Project) (rank : Nat → Nat) : Decidable (RankOk p rank) := by
  unfold RankOk; infer_instance

/-- `q` extends `p`: old identities resolve exactly as before. -/
def Extends (p q : Project) : Prop :=
  p.nextId ≤ q.nextId ∧ ∀ id, id < p.nextId → lookupItem q id = lookupItem p id

/-- Every composition with identity at least `n0` references only
items with identity at least `n0` as sub-compositions. -/
def FreshClosed (q : Project) (n0 : Nat) : Prop :=
  ∀ d, n0 ≤ d → ∀ s ∈ compSources q (layersOf q d), n0 ≤ s

-- ─── The spec's words, for refinement comparisons ───────────

/-- Standard CSV quoting of one field: double every quote character. -/
def escQuotes : List Char → List Char
  | [] => []
  | c :: cs => if c = '"' then '"' :: '"' :: escQuotes cs else c :: escQuotes cs

/-- Wrap a field in quotes, escaping embedded quotes by doubling. -/
def quoteField (s : String) : String :=
  String.mk ('"' :: escQuotes s.data ++ ['"'])

/-- Entries (owner, index, layer name) for the direct layers of `c`
starting at index `k`. -/
def ownEntries (c : Nat) : Nat → List Layer → List (Nat × Nat × String)
  | _, [] => []
  | k, l :: ls => (c, k, l.name) :: ownEntries c (k+1) ls

/-- The visit order described in the spec (§4.5): all direct
references of the root first, then each child container in reference
order, recursively with the same scheme. -/
def specVisit (p : Project) : Nat → Nat → List (Nat × Nat × String)
  | 0, _ => []
  | fuel+1, c =>
    ownEntries c 0 (layersOf p c) ++
    ((compSources p (layersOf p c)).map (specVisit p fuel)).flatten

/-- First entry of the spec's visit order whose layer name matches. -/
def findByNameSpec (p : Project) (fuel : Nat) (c : Nat) (n : String) : Option (Nat × Nat) :=
  ((specVisit p fuel c).find? (fun t => t.2.2 == n)).map (fun t => (t.1, t.2.1))

/-- The claim's reading of deep resolution: the shallow pass matches
Leaves only (layers that do not reference a sub-composition); used only
to compare against the source's `findLayerDeep`. -/
def leafOnlyStep (p : Project) (rec : Nat → String → Option (Nat × Nat))
    (c : Nat) (n : String) : Option (Nat × Nat) :=
  match (layersOf p c).findIdx? (fun l => l.name == n && (compSourceOf p l).isNone) with
  | some i => some (c, i)
  | none =>
    (layersOf p c).findSome? (fun l =>
      match compSourceOf p l with
      | some s => rec s n
      | none => none)

def findByNameLeafOnly (p : Project) : Nat → Nat → String → Option (Nat × Nat)
  | 0, _, _ => none
  | fuel+1, c, n => leafOnlyStep p (findByNameLeafOnly p fuel) c n

-- ─── Concrete projects used as witnesses and counterexamples ─

/-- Master `Main_Comp` containing a reference to `Sub_Comp` and a text
layer `Headline`. -/
def exProj : Project :=
  { items := [
      (0, Item.comp "Main_Comp" "" [⟨"SubRef", LayerContent.source 1⟩, ⟨"Headline", LayerContent.text "Hello"⟩]),
      (1, Item.comp "Sub_Comp" "" [⟨"Deep", LayerContent.text "Hi"⟩])],
    nextId := 2 }

def exRank : Nat → Nat := fun i => 2 - i

def exCSV : String := "comp_name,layer_name,type,en-US\nMain_Comp,Headline,text,Welcome"

/-- A cyclic reference graph: `M` references `A`, `A` references `B`,
`B` references `A` back. -/
def exProjCyc : Project :=
  { items := [
      (0, Item.comp "M" "" [⟨"a", LayerContent.source 1⟩]),
      (1, Item.comp "A" "" [⟨"b", LayerContent.source 2⟩]),
      (2, Item.comp "B" "" [⟨"a", LayerContent.source 1⟩])],
    nextId := 3 }

/-- An acyclic project whose sub-compositions 1 and 3 share the name
`N` (the host allows duplicate composition names). -/
def exProjColl : Project :=
  { items := [
      (0, Item.comp "M" "" [⟨"x", LayerContent.source 1⟩, ⟨"y", LayerContent.source 2⟩, ⟨"z", LayerContent.source 3⟩]),
      (1, Item.comp "N" "" []),
      (2, Item.comp "B" "" [⟨"c", LayerContent.source 1⟩]),
      (3, Item.comp "N" "" [⟨"d", LayerContent.source 2⟩])],
    nextId := 4 }

/-- A root whose direct layer `T` references a sub-composition, while
the sub-composition holds a text leaf also named `T`. -/
def exProjShadow : Project :=
  { items := [
      (0, Item.comp "Root" "" [⟨"T", LayerContent.source 1⟩]),
      (1, Item.comp "S" "" [⟨"T", LayerContent.text "x"⟩])],
    nextId := 2 }

/-- A three-composition chain `M` references `A`, `A` references `B`,
with pairwise distinct names (an ordinary acyclic tree). -/
def exProjChain : Project :=
  { items := [
      (0, Item.comp "M" "" [⟨"a", LayerContent.source 1⟩]),
      (1, Item.comp "A" "" [⟨"b", LayerContent.source 2⟩]),
      (2, Item.comp "B" "" [⟨"t", LayerContent.text "x"⟩])],
    nextId := 3 }

/-- A run state whose error log is already full (20 entries). -/
def exFullLogState : RunState :=
  ⟨exProj, ⟨0, 0, 20⟩, List.replicate 20 "e"⟩

/-- A manifest row with an unrecognized `type` value. -/
def exRowAsset : Row :=
  [("comp_name", "Main_Comp"), ("layer_name", "Headline"), ("type", "asset"), ("en-US", "x")]

/-- A manifest row with an empty value for locale `en-US`. -/
def exRowEmpty : Row :=
  [("comp_name", "Main_Comp"), ("layer_name", "Headline"), ("type", "text"), ("en-US", "")]

/-- Invariant of the sort loop state (sortedComps, processed names):
the processed names are exactly the names of the sorted comps, the
sorted comps come from `all`, names are never processed twice, and
every sorted comp's in-set children names were processed before it. -/
def TopoInv (p : Project) (all : List Nat) (st : List Nat × List String) : Prop :=
  st.2 = st.1.map (compName p) ∧ st.1 ⊆ all ∧ st.2.Nodup ∧
  ∀ k (h : k < st.1.length), ∀ b ∈ all,
    b ∈ compSources p (layersOf p st.1[k]) →
    compName p b ∈ st.2.take k

/-- Relation between the content of an original layer and the content
of the corresponding layer of its duplicate after relinking: a
reference to a sub-composition has been redirected through the
duplicate map by the composition's name; any other content is
unchanged. -/
def ContentRel (q : Project) (dm : List (String × Nat)) : LayerContent → LayerContent → Prop
  | LayerContent.source s, cd =>
      if isCompId q s = true then
        ∃ d, dm.lookup (compName q s) = some d ∧ cd = LayerContent.source d
      else cd = LayerContent.source s
  | co, cd => cd = co

/-- Layer-by-layer correspondence between an original composition's
layers and its duplicate's layers: same length, same names, contents
related by `ContentRel`. -/
def LayersRel (q : Project) (dm : List (String × Nat)) (lo ld : List Layer) : Prop :=
  ld.length = lo.length ∧ ∀ i (h1 : i < lo.length) (h2 : i < ld.length),
    ld[i].name = lo[i].name ∧ ContentRel q dm lo[i].content ld[i].content

/-- Invariant of the duplication fold of `duplicateFullTree` at base
project `q`: `q0` is the current project and `dm0` the duplicate map
built so far.  New items got fresh, sequential identities; originals
are untouched; every map entry holds a duplicate of an original from
`origs`, renamed with the suffix, whose layers relate to the
original's through the map; and every composition with a fresh
identity references only fresh identities. -/
def DInv (q : Project) (origs : List Nat) (suffix : String)
    (q0 : Project) (dm0 : List (String × Nat)) : Prop :=
  q0.nextId = q.nextId + dm0.length ∧
  (∀ id, id < q.nextId → lookupItem q0 id = lookupItem q id) ∧
  (∀ e ∈ q0.items, e.1 < q0.nextId) ∧
  (∀ e ∈ q0.items, ∀ l ∈ itemLayers e.2, layerSrcBound q0.nextId l = true) ∧
  (dm0.map Prod.fst).Nodup ∧
  (∀ e ∈ dm0, q.nextId ≤ e.2 ∧ e.2 < q0.nextId) ∧
  (∀ e ∈ dm0, ∃ o ∈ origs, compName q o = e.1 ∧ ∃ fold ld,
    lookupItem q0 e.2 = some (Item.comp (e.1 ++ "_" ++ suffix) fold ld) ∧
    LayersRel q dm0 (layersOf q o) ld) ∧
  (∀ d, q.nextId ≤ d → ∀ s ∈ compSources q0 (layersOf q0 d), q.nextId ≤ s)

/-- Frame invariant of a whole run relative to the pristine project `p`:
the current project `q` extends `p` (all of `p`'s items preserved
verbatim), is well bounded, and every fresh item references only fresh
items, so the mutation loop can never reach an original. -/
def GInv (p q : Project) : Prop :=
  p.nextId ≤ q.nextId ∧
  (∀ id, id < p.nextId → lookupItem q id = lookupItem p id) ∧
  (∀ e ∈ q.items, e.1 < q.nextId ∧ ∀ l ∈ itemLayers e.2, layerSrcBound q.nextId l = true) ∧
  FreshClosed q p.nextId

-- ════════════════════════════════════════════════════════════
-- Association list and store plumbing
-- ════════════════════════════════════════════════════════════

lemma lookup_mem {α β : Type} [BEq α] [LawfulBEq α] {l : List (α × β)} {k : α} {v : β}
    (h : l.lookup k = some v) : (k, v) ∈ l := by
  induction l with
  | nil => simp [List.lookup] at h
  | cons e l ih =>
    obtain ⟨a, b⟩ := e
    rw [List.lookup_cons] at h
    by_cases hk : k = a
    · subst hk
      simp at h
      subst h
      exact List.mem_cons_self _ _
    · have : (k == a) = false := beq_false_of_ne hk
      rw [this] at h
      exact List.mem_cons_of_mem _ (ih h)

lemma mem_keys_of_lookup {α β : Type} [BEq α] [LawfulBEq α] {l : List (α × β)} {k : α} {v : β}
    (h : l.lookup k = some v) : k ∈ l.map Prod.fst :=
  List.mem_map.mpr ⟨(k, v), lookup_mem h, rfl⟩

lemma lookup_isSome_of_mem_keys {α β : Type} [BEq α] [LawfulBEq α] {l : List (α × β)} {k : α}
    (h : k ∈ l.map Prod.fst) : (l.lookup k).isSome = true := by
  induction l with
  | nil => simp at h
  | cons e l ih =>
    obtain ⟨a, b⟩ := e
    rw [List.lookup_cons]
    by_cases hk : k = a
    · subst hk; simp
    · have hf : (k == a) = false := beq_false_of_ne hk
      rw [hf]
      simp only [List.map_cons, List.mem_cons] at h
      exact ih (h.resolve_left hk)

lemma lookup_of_mem_nodup {α β : Type} [BEq α] [LawfulBEq α] {l : List (α × β)} {k : α} {v : β}
    (hn : (l.map Prod.fst).Nodup) (h : (k, v) ∈ l) : l.lookup k = some v := by
  induction l with
  | nil => simp at h
  | cons e l ih =>
    obtain ⟨a, b⟩ := e
    simp only [List.map_cons, List.nodup_cons] at hn
    rw [List.lookup_cons]
    rcases List.mem_cons.mp h with h1 | h1
    · obtain ⟨h2, h3⟩ := Prod.mk.injEq .. ▸ h1
      subst h2; subst h3; simp
    · by_cases hk : k = a
      · subst hk
        exact absurd (List.mem_map.mpr ⟨(k, v), h1, rfl⟩) hn.1
      · have hf : (k == a) = false := beq_false_of_ne hk
        rw [hf]
        exact ih hn.2 h1

lemma lookup_eq_none_of_not_mem {α β : Type} [BEq α] [LawfulBEq α] {l : List (α × β)} {k : α}
    (h : k ∉ l.map Prod.fst) : l.lookup k = none := by
  cases hl : l.lookup k with
  | none => rfl
  | some v => exact absurd (mem_keys_of_lookup hl) h

-- jsSet facts

lemma jsSet_entry_cases {α : Type} {m : List (String × α)} {k : String} {v : α} {e : String × α}
    (h : e ∈ jsSet m k v) : e.2 = v ∨ e ∈ m := by
  unfold jsSet at h
  split at h
  · rcases List.mem_map.mp h with ⟨e', he', heq⟩
    by_cases hk : e'.1 = k
    · rw [if_pos hk] at heq; left; rw [← heq]
    · rw [if_neg hk] at heq; right; rw [← heq]; exact he'
  · rcases List.mem_append.mp h with h1 | h1
    · right; exact h1
    · left; simp at h1; rw [h1]

lemma jsSet_keys_sub {α : Type} {m : List (String × α)} {k : String} {v : α} {k' : String}
    (h : k' ∈ (jsSet m k v).map Prod.fst) : k' = k ∨ k' ∈ m.map Prod.fst := by
  rcases List.mem_map.mp h with ⟨e, he, heq⟩
  rcases jsSet_entry_cases he with h1 | h1
  · unfold jsSet at he
    split at he
    · rcases List.mem_map.mp he with ⟨e', he', heq'⟩
      by_cases hk : e'.1 = k
      · rw [if_pos hk] at heq'; left; rw [← heq, ← heq']
      · rw [if_neg hk] at heq'; right; rw [← heq, ← heq']; exact List.mem_map.mpr ⟨e', he', rfl⟩
    · rcases List.mem_append.mp he with h2 | h2
      · right; rw [← heq]; exact List.mem_map.mpr ⟨e, h2, rfl⟩
      · simp at h2; left; rw [← heq, h2]
  · right; rw [← heq]; exact List.mem_map.mpr ⟨e, h1, rfl⟩

lemma jsSet_lookup_isSome {α : Type} {m : List (String × α)} {k : String} {v : α} {k' : String}
    (h : k' = k ∨ (m.lookup k').isSome = true) : ((jsSet m k v).lookup k').isSome = true := by
  apply lookup_isSome_of_mem_keys
  unfold jsSet
  split
  · have hkeys : (List.map Prod.fst (m.map (fun e => if e.1 = k then (k, v) else e))) = m.map Prod.fst := by
      rw [List.map_map]
      apply List.map_congr_left
      intro e _
      by_cases hk : e.1 = k
      · simp [hk]
      · simp [hk]
    rw [hkeys]
    rcases h with h | h
    · subst h
      rename_i hs
      rcases Option.isSome_iff_exists.mp hs with ⟨v', hv'⟩
      exact mem_keys_of_lookup hv'
    · rcases Option.isSome_iff_exists.mp h with ⟨v', hv'⟩
      exact mem_keys_of_lookup hv'
  · rw [List.map_append]
    rcases h with h | h
    · subst h; simp
    · rcases Option.isSome_iff_exists.mp h with ⟨v', hv'⟩
      exact List.mem_append.mpr (Or.inl (mem_keys_of_lookup hv'))

lemma jsSet_append_of_not_mem {α : Type} {m : List (String × α)} {k : String} {v : α}
    (h : k ∉ m.map Prod.fst) : jsSet m k v = m ++ [(k, v)] := by
  unfold jsSet
  rw [lookup_eq_none_of_not_mem h]
  rfl

-- Project store lemmas

lemma lookupItem_none_of_ge {q : Project} (hb : ∀ e ∈ q.items, e.1 < q.nextId)
    {id : Nat} (h : q.nextId ≤ id) : lookupItem q id = none := by
  cases hl : lookupItem q id with
  | none => rfl
  | some it =>
    have := hb _ (lookup_mem hl)
    omega

lemma lookupItem_addItem_old {q : Project} {it : Item} {id : Nat} {x : Item}
    (h : lookupItem q id = some x) : lookupItem (addItem q it).1 id = some x := by
  unfold lookupItem addItem at *
  rw [List.lookup_append, h]
  rfl

lemma lookupItem_addItem_lt {q : Project}
    {it : Item} {id : Nat} (h : id < q.nextId) :
    lookupItem (addItem q it).1 id = lookupItem q id := by
  unfold lookupItem addItem
  rw [List.lookup_append]
  cases hl : List.lookup id q.items with
  | some x => rfl
  | none =>
    simp only [Option.none_or]
    rw [List.lookup_cons]
    have : (id == q.nextId) = false := beq_false_of_ne (by omega)
    rw [this]
    rfl

lemma lookupItem_addItem_self {q : Project} (hb : ∀ e ∈ q.items, e.1 < q.nextId) {it : Item} :
    lookupItem (addItem q it).1 q.nextId = some it := by
  unfold lookupItem addItem
  rw [List.lookup_append, show List.lookup q.nextId q.items = none from
    lookupItem_none_of_ge hb (le_refl _)]
  simp [List.lookup_cons]

lemma lookup_map_update {l : List (Nat × Item)} {i : Nat} {f : Item → Item} {id : Nat} :
    List.lookup id (l.map (fun e => if e.1 = i then (e.1, f e.2) else e)) =
      if id = i then (List.lookup id l).map f else List.lookup id l := by
  induction l with
  | nil => by_cases h : id = i <;> simp [h, List.lookup]
  | cons e l ih =>
    obtain ⟨a, b⟩ := e
    by_cases ha : a = i
    · by_cases hid : id = a
      · subst ha; subst hid
        simp [List.lookup_cons]
      · subst ha
        have hf : (id == a) = false := beq_false_of_ne hid
        simp [List.lookup_cons, hf, ih, hid]
    · by_cases hid : id = a
      · subst hid
        simp [List.lookup_cons, ha]
      · have hf : (id == a) = false := beq_false_of_ne hid
        simp [List.lookup_cons, ha, hf, ih]

lemma lookupItem_updateItem {q : Project} {i : Nat} {f : Item → Item} {id : Nat} :
    lookupItem (updateItem q i f) id =
      if id = i then (lookupItem q id).map f else lookupItem q id := by
  unfold lookupItem updateItem
  exact lookup_map_update

lemma lookupItem_updateItem_ne {q : Project} {i : Nat} {f : Item → Item} {id : Nat}
    (h : id ≠ i) : lookupItem (updateItem q i f) id = lookupItem q id := by
  rw [lookupItem_updateItem, if_neg h]

lemma updateItem_keys {q : Project} {i : Nat} {f : Item → Item} :
    itemKeys (updateItem q i f) = itemKeys q := by
  unfold itemKeys updateItem
  simp only [List.map_map]
  apply List.map_congr_left
  intro e _
  by_cases h : e.1 = i <;> simp [h]

lemma layersOf_eq_of_lookup_eq {q q' : Project} {id : Nat}
    (h : lookupItem q' id = lookupItem q id) : layersOf q' id = layersOf q id := by
  unfold layersOf
  rw [h]

lemma compName_eq_of_lookup_eq {q q' : Project} {id : Nat}
    (h : lookupItem q' id = lookupItem q id) : compName q' id = compName q id := by
  unfold compName
  rw [h]

lemma isCompId_eq_of_lookup_eq {q q' : Project} {id : Nat}
    (h : lookupItem q' id = lookupItem q id) : isCompId q' id = isCompId q id := by
  unfold isCompId
  rw [h]

lemma mem_compIds_of_isCompId {p : Project} {x : Nat} (h : isCompId p x = true) :
    x ∈ compIds p := by
  cases hl : lookupItem p x with
  | none => simp [isCompId, hl] at h
  | some it =>
    simp only [isCompId, hl] at h
    exact List.mem_filterMap.mpr ⟨(x, it), lookup_mem hl, by simp [h]⟩

lemma mem_itemKeys_of_isCompId {p : Project} {x : Nat} (h : isCompId p x = true) :
    x ∈ itemKeys p := by
  cases hl : lookupItem p x with
  | none => simp [isCompId, hl] at h
  | some it => exact List.mem_map.mpr ⟨(x, it), lookup_mem hl, rfl⟩

lemma compSources_congr {q q' : Project} {ls : List Layer}
    (h : ∀ l ∈ ls, compSourceOf q' l = compSourceOf q l) :
    compSources q' ls = compSources q ls :=
  List.filterMap_congr h

lemma compSourceOf_eq_of_src_eq {q q' : Project} {l : Layer}
    (h : ∀ s, l.content = LayerContent.source s → isCompId q' s = isCompId q s) :
    compSourceOf q' l = compSourceOf q l := by
  cases hc : l.content with
  | source s => simp [compSourceOf, hc, h s hc]
  | text v => simp [compSourceOf, hc]
  | other => simp [compSourceOf, hc]

lemma mem_compSources {q : Project} {ls : List Layer} {s : Nat} :
    s ∈ compSources q ls ↔ ∃ l ∈ ls, compSourceOf q l = some s := by
  unfold compSources
  exact List.mem_filterMap

lemma compSourceOf_isCompId {q : Project} {l : Layer} {s : Nat}
    (h : compSourceOf q l = some s) : isCompId q s = true := by
  cases hc : l.content with
  | source s' =>
    simp only [compSourceOf, hc] at h
    by_cases hi : isCompId q s' = true
    · rw [if_pos hi] at h
      cases h
      exact hi
    · rw [if_neg hi] at h
      cases h
  | text v => simp [compSourceOf, hc] at h
  | other => simp [compSourceOf, hc] at h

lemma compSourceOf_src_bound {q : Project} {l : Layer} {s : Nat} {n : Nat}
    (hb : layerSrcBound n l = true) (h : compSourceOf q l = some s) : s < n := by
  cases hc : l.content with
  | source s' =>
    simp only [compSourceOf, hc] at h
    simp only [layerSrcBound, hc] at hb
    by_cases hi : isCompId q s' = true
    · rw [if_pos hi] at h
      cases h
      exact of_decide_eq_true hb
    · rw [if_neg hi] at h
      cases h
  | text v => simp [compSourceOf, hc] at h
  | other => simp [compSourceOf, hc] at h

-- Discovery lemmas

lemma discoverGo_nil (p : Project) (fuel : Nat) (coll : List Nat) :
    discoverGo p fuel [] coll = coll := by
  cases fuel <;> rfl

lemma discoverGo_zero (p : Project) (ls : List Layer) (coll : List Nat) :
    discoverGo p 0 ls coll = coll := rfl

lemma discoverGo_cons (p : Project) (fuel : Nat) (l : Layer) (ls : List Layer) (coll : List Nat) :
    discoverGo p (fuel+1) (l :: ls) coll =
      discoverGo p (fuel+1) ls
        (match compSourceOf p l with
         | some s => if coll.contains s then coll else discoverGo p fuel (layersOf p s) (coll ++ [s])
         | none => coll) := rfl

lemma discoverGo_cons_none {p : Project} {fuel : Nat} {l : Layer} {ls : List Layer}
    {coll : List Nat} (hcs : compSourceOf p l = none) :
    discoverGo p (fuel+1) (l :: ls) coll = discoverGo p (fuel+1) ls coll := by
  rw [discoverGo_cons, hcs]

lemma discoverGo_cons_skip {p : Project} {fuel : Nat} {l : Layer} {ls : List Layer}
    {coll : List Nat} {s : Nat} (hcs : compSourceOf p l = some s)
    (hcon : coll.contains s = true) :
    discoverGo p (fuel+1) (l :: ls) coll = discoverGo p (fuel+1) ls coll := by
  rw [discoverGo_cons, hcs]
  show discoverGo p (fuel+1) ls
      (if coll.contains s = true then coll
       else discoverGo p fuel (layersOf p s) (coll ++ [s])) = discoverGo p (fuel+1) ls coll
  rw [if_pos hcon]

lemma discoverGo_cons_descend {p : Project} {fuel : Nat} {l : Layer} {ls : List Layer}
    {coll : List Nat} {s : Nat} (hcs : compSourceOf p l = some s)
    (hcon : coll.contains s = false) :
    discoverGo p (fuel+1) (l :: ls) coll =
      discoverGo p (fuel+1) ls (discoverGo p fuel (layersOf p s) (coll ++ [s])) := by
  rw [discoverGo_cons, hcs]
  show discoverGo p (fuel+1) ls
      (if coll.contains s = true then coll
       else discoverGo p fuel (layersOf p s) (coll ++ [s])) = _
  rw [hcon]
  simp

lemma compSources_cons_none {q : Project} {l : Layer} {ls : List Layer}
    (h : compSourceOf q l = none) : compSources q (l :: ls) = compSources q ls := by
  unfold compSources
  rw [List.filterMap_cons, h]

lemma compSources_cons_some {q : Project} {l : Layer} {ls : List Layer} {s : Nat}
    (h : compSourceOf q l = some s) : compSources q (l :: ls) = s :: compSources q ls := by
  unfold compSources
  rw [List.filterMap_cons, h]

lemma discoverGo_append (p : Project) :
    ∀ fuel ls coll, ∃ ext, discoverGo p fuel ls coll = coll ++ ext := by
  intro fuel
  induction fuel with
  | zero =>
    intro ls coll
    rw [discoverGo_zero]
    exact ⟨[], by simp⟩
  | succ fuel ihf =>
    intro ls
    induction ls with
    | nil => intro coll; rw [discoverGo_nil]; exact ⟨[], by simp⟩
    | cons l ls ihl =>
      intro coll
      rw [discoverGo_cons]
      cases hcs : compSourceOf p l with
      | none => exact ihl coll
      | some s =>
        by_cases hcon : coll.contains s
        · simp only [hcon, if_pos]
          exact ihl coll
        · simp only [hcon, if_neg, Bool.false_eq_true, not_false_iff]
          obtain ⟨ext1, he1⟩ := ihf (layersOf p s) (coll ++ [s])
          obtain ⟨ext2, he2⟩ := ihl (discoverGo p fuel (layersOf p s) (coll ++ [s]))
          exact ⟨[s] ++ ext1 ++ ext2, by rw [he2, he1]; simp⟩

lemma discoverGo_sub (p : Project) {fuel : Nat} {ls : List Layer} {coll : List Nat} :
    coll ⊆ discoverGo p fuel ls coll := by
  obtain ⟨ext, he⟩ := discoverGo_append p fuel ls coll
  rw [he]
  exact List.subset_append_left _ _

lemma discoverGo_pred (p : Project) (Good : Nat → Prop)
    (hstep : ∀ x, Good x → ∀ s ∈ compSources p (layersOf p x), Good s) :
    ∀ fuel ls coll, (∀ x ∈ coll, Good x) → (∀ s ∈ compSources p ls, Good s) →
      ∀ x ∈ discoverGo p fuel ls coll, Good x := by
  intro fuel
  induction fuel with
  | zero =>
    intro ls coll hc _ x hx
    rw [discoverGo_zero] at hx
    exact hc x hx
  | succ fuel ihf =>
    intro ls
    induction ls with
    | nil =>
      intro coll hc _ x hx
      rw [discoverGo_nil] at hx
      exact hc x hx
    | cons l ls ihl =>
      intro coll hc hs x hx
      rw [discoverGo_cons] at hx
      cases hcs : compSourceOf p l with
      | none =>
        simp only [hcs] at hx
        refine ihl coll hc (fun s' hs' => hs s' ?_) x hx
        rw [compSources_cons_none hcs]
        exact hs'
      | some s =>
        simp only [hcs] at hx
        have hGs : Good s := hs s (by rw [compSources_cons_some hcs]; exact List.mem_cons_self _ _)
        have htail : ∀ s' ∈ compSources p ls, Good s' := by
          intro s' hs'
          exact hs s' (by rw [compSources_cons_some hcs]; exact List.mem_cons_of_mem _ hs')
        by_cases hcon : coll.contains s
        · rw [if_pos hcon] at hx
          exact ihl coll hc htail x hx
        · rw [if_neg hcon] at hx
          have hcoll' : ∀ y ∈ discoverGo p fuel (layersOf p s) (coll ++ [s]), Good y := by
            apply ihf
            · intro y hy
              rcases List.mem_append.mp hy with h1 | h1
              · exact hc y h1
              · simp at h1; rw [h1]; exact hGs
            · exact hstep s hGs
          exact ihl _ hcoll' htail x hx

lemma compIds_length_le (p : Project) : (compIds p).length ≤ p.items.length :=
  List.length_filterMap_le _ _

lemma discoverGo_main (p : Project) :
    ∀ fuel ls coll, coll.Nodup → (∀ x ∈ coll, isCompId p x = true) →
      (compIds p).length + 1 ≤ fuel + coll.length →
      (discoverGo p fuel ls coll).Nodup ∧
      (∀ x ∈ discoverGo p fuel ls coll, isCompId p x = true) ∧
      (∀ s ∈ compSources p ls, s ∈ discoverGo p fuel ls coll) ∧
      (∀ x ∈ discoverGo p fuel ls coll, x ∈ coll ∨
        ∀ s ∈ compSources p (layersOf p x), s ∈ discoverGo p fuel ls coll) := by
  intro fuel
  induction fuel with
  | zero =>
    intro ls coll hnd hcp hbound
    have hsub : coll ⊆ compIds p := fun x hx => mem_compIds_of_isCompId (hcp x hx)
    have hlen : coll.length ≤ (compIds p).length := (hnd.subperm hsub).length_le
    omega
  | succ fuel ihf =>
    intro ls
    induction ls with
    | nil =>
      intro coll hnd hcp _
      rw [discoverGo_nil]
      refine ⟨hnd, hcp, ?_, ?_⟩
      · intro s hs
        simp [compSources] at hs
      · intro x hx
        exact Or.inl hx
    | cons l ls ihl =>
      intro coll hnd hcp hbound
      cases hcs : compSourceOf p l with
      | none =>
        rw [discoverGo_cons_none hcs]
        have h := ihl coll hnd hcp hbound
        refine ⟨h.1, h.2.1, ?_, ?_⟩
        · intro s hs
          rw [compSources_cons_none hcs] at hs
          exact h.2.2.1 s hs
        · exact h.2.2.2
      | some s =>
        have hsc : isCompId p s = true := compSourceOf_isCompId hcs
        by_cases hcon : coll.contains s
        · rw [discoverGo_cons_skip hcs hcon]
          have hsmem : s ∈ coll := by simpa using hcon
          have h := ihl coll hnd hcp hbound
          refine ⟨h.1, h.2.1, ?_, ?_⟩
          · intro s' hs'
            rw [compSources_cons_some hcs] at hs'
            rcases List.mem_cons.mp hs' with h1 | h1
            · subst h1
              exact discoverGo_sub p hsmem
            · exact h.2.2.1 s' h1
          · exact h.2.2.2
        · rw [discoverGo_cons_descend hcs (by simpa using hcon)]
          have hsnot : s ∉ coll := by simpa using hcon
          have hnd1 : (coll ++ [s]).Nodup := by
            rw [List.nodup_append]
            exact ⟨hnd, List.nodup_singleton s, by simpa using hsnot⟩
          have hcp1 : ∀ x ∈ coll ++ [s], isCompId p x = true := by
            intro x hx
            rcases List.mem_append.mp hx with h1 | h1
            · exact hcp x h1
            · simp at h1; rw [h1]; exact hsc
          have hb1 : (compIds p).length + 1 ≤ fuel + (coll ++ [s]).length := by
            rw [List.length_append]
            simp only [List.length_singleton]
            omega
          have hinner := ihf (layersOf p s) (coll ++ [s]) hnd1 hcp1 hb1
          set coll' := discoverGo p fuel (layersOf p s) (coll ++ [s]) with hcoll'
          obtain ⟨ext1, he1⟩ := discoverGo_append p fuel (layersOf p s) (coll ++ [s])
          have hlen' : coll.length + 1 ≤ coll'.length := by
            rw [hcoll', he1, List.length_append, List.length_append]
            simp
          have hb2 : (compIds p).length + 1 ≤ (fuel + 1) + coll'.length := by omega
          have houter := ihl coll' hinner.1 hinner.2.1 hb2
          obtain ⟨ext2, he2⟩ := discoverGo_append p (fuel+1) ls coll'
          have hsub' : coll' ⊆ discoverGo p (fuel+1) ls coll' := discoverGo_sub p
          refine ⟨houter.1, houter.2.1, ?_, ?_⟩
          · intro s' hs'
            rw [compSources_cons_some hcs] at hs'
            rcases List.mem_cons.mp hs' with h1 | h1
            · subst h1
              apply hsub'
              rw [hcoll', he1]
              exact List.mem_append.mpr (Or.inl (List.mem_append.mpr (Or.inr (by simp))))
            · exact houter.2.2.1 s' h1
          · intro x hx
            rcases houter.2.2.2 x hx with h1 | h1
            · rcases hinner.2.2.2 x h1 with h2 | h2
              · rcases List.mem_append.mp h2 with h3 | h3
                · exact Or.inl h3
                · simp at h3
                  subst h3
                  exact Or.inr (fun s' hs' => hsub' (hinner.2.2.1 s' hs'))
              · exact Or.inr (fun s' hs' => hsub' (h2 s' hs'))
            · exact Or.inr h1

/-- Specification of `discoverAllSubComps`: the discovered set is
duplicate-free, consists of compositions, contains every direct
sub-composition of the root, and is closed under sub-composition
references. -/
lemma discover_spec (p : Project) (c : Nat) :
    (discoverAllSubComps p c).Nodup ∧
    (∀ x ∈ discoverAllSubComps p c, isCompId p x = true) ∧
    (∀ s ∈ compSources p (layersOf p c), s ∈ discoverAllSubComps p c) ∧
    (∀ x ∈ discoverAllSubComps p c, ∀ s ∈ compSources p (layersOf p x),
      s ∈ discoverAllSubComps p c) := by
  have hb : (compIds p).length + 1 ≤ (p.items.length + 1) + ([] : List Nat).length := by
    have := compIds_length_le p
    simp
    omega
  have h := discoverGo_main p (p.items.length + 1) (layersOf p c) [] (by simp) (by simp) hb
  refine ⟨h.1, h.2.1, h.2.2.1, ?_⟩
  intro x hx s hs
  rcases h.2.2.2 x hx with h1 | h1
  · simp at h1
  · exact h1 s hs

lemma discover_pred (p : Project) (c : Nat) (Good : Nat → Prop)
    (hstep : ∀ x, Good x → ∀ s ∈ compSources p (layersOf p x), Good s)
    (hroot : ∀ s ∈ compSources p (layersOf p c), Good s) :
    ∀ x ∈ discoverAllSubComps p c, Good x := by
  exact discoverGo_pred p Good hstep (p.items.length + 1) (layersOf p c) [] (by simp) hroot

-- Topological sort lemmas

lemma topoVisit_ext (p : Project) (all : List Nat) (st : List Nat × List String) (sc : Nat) :
    ∃ ext, (topoVisit p all st sc).1 = st.1 ++ ext ∧
      (topoVisit p all st sc).2 = st.2 ++ ext.map (compName p) := by
  unfold topoVisit
  by_cases h1 : st.2.contains (compName p sc)
  · rw [if_pos h1]
    exact ⟨[], by simp⟩
  · rw [if_neg h1]
    by_cases h2 : childrenDone p all st.2 sc
    · rw [if_pos h2]
      exact ⟨[sc], by simp⟩
    · rw [if_neg h2]
      exact ⟨[], by simp⟩

lemma topoFold_ext (p : Project) (all : List Nat) :
    ∀ (l : List Nat) (st : List Nat × List String),
      ∃ ext, (l.foldl (topoVisit p all) st).1 = st.1 ++ ext ∧
        (l.foldl (topoVisit p all) st).2 = st.2 ++ ext.map (compName p) := by
  intro l
  induction l with
  | nil => intro st; exact ⟨[], by simp⟩
  | cons a l ih =>
    intro st
    obtain ⟨e1, h11, h12⟩ := topoVisit_ext p all st a
    obtain ⟨e2, h21, h22⟩ := ih (topoVisit p all st a)
    refine ⟨e1 ++ e2, ?_, ?_⟩
    · rw [List.foldl_cons, h21, h11, List.append_assoc]
    · rw [List.foldl_cons, h22, h12, List.map_append, List.append_assoc]

lemma childrenDone_spec {p : Project} {all : List Nat} {pr : List String} {sc : Nat}
    (h : childrenDone p all pr sc = true) :
    ∀ b ∈ compSources p (layersOf p sc), b ∈ all → compName p b ∈ pr := by
  intro b hb hball
  unfold childrenDone at h
  rw [List.all_eq_true] at h
  rcases mem_compSources.mp hb with ⟨l, hl, hcs⟩
  have := h l hl
  simp only [hcs] at this
  rw [if_pos (by simpa using hball)] at this
  simpa using this

lemma childrenDone_of {p : Project} {all : List Nat} {pr : List String} {sc : Nat}
    (h : ∀ b ∈ compSources p (layersOf p sc), b ∈ all → compName p b ∈ pr) :
    childrenDone p all pr sc = true := by
  unfold childrenDone
  rw [List.all_eq_true]
  intro l hl
  cases hcs : compSourceOf p l with
  | none => simp [hcs]
  | some s =>
    simp only [hcs]
    by_cases hsall : all.contains s
    · rw [if_pos hsall]
      have := h s (mem_compSources.mpr ⟨l, hl, hcs⟩) (by simpa using hsall)
      simpa using this
    · rw [if_neg hsall]

lemma childrenDone_mono {p : Project} {all : List Nat} {pr pr' : List String} {sc : Nat}
    (hsub : pr ⊆ pr') (h : childrenDone p all pr sc = true) :
    childrenDone p all pr' sc = true :=
  childrenDone_of (fun b hb hball => hsub (childrenDone_spec h b hb hball))

lemma topoVisit_inv {p : Project} {all : List Nat} {st : List Nat × List String} {sc : Nat}
    (hinv : TopoInv p all st) (hsc : sc ∈ all) : TopoInv p all (topoVisit p all st sc) := by
  obtain ⟨hmap, hsub, hnd, hord⟩ := hinv
  unfold topoVisit
  by_cases h1 : st.2.contains (compName p sc)
  · rw [if_pos h1]
    exact ⟨hmap, hsub, hnd, hord⟩
  · rw [if_neg h1]
    by_cases h2 : childrenDone p all st.2 sc
    · rw [if_pos h2]
      have hnotin : compName p sc ∉ st.2 := by simpa using h1
      refine ⟨?_, ?_, ?_, ?_⟩
      · simp [hmap]
      · intro x hx
        rcases List.mem_append.mp hx with h3 | h3
        · exact hsub h3
        · simp at h3; rw [h3]; exact hsc
      · rw [List.nodup_append]
        exact ⟨hnd, List.nodup_singleton _, by simpa using hnotin⟩
      · intro k hk b hball hbsrc
        dsimp only at hk hbsrc ⊢
        simp only [List.length_append, List.length_singleton] at hk
        have hlen2 : st.2.length = st.1.length := by rw [hmap, List.length_map]
        by_cases hklt : k < st.1.length
        · have hget : (st.1 ++ [sc])[k] = st.1[k] := List.getElem_append_left hklt
          rw [hget] at hbsrc
          have := hord k hklt b hball hbsrc
          rw [List.take_append_of_le_length (by omega)]
          exact this
        · have hkeq : k = st.1.length := by omega
          subst hkeq
          have hget : (st.1 ++ [sc])[st.1.length] = sc := by
            simp
          rw [hget] at hbsrc
          rw [← hlen2, List.take_left]
          exact childrenDone_spec h2 b hbsrc hball
    · rw [if_neg h2]
      exact ⟨hmap, hsub, hnd, hord⟩

lemma topoFold_inv {p : Project} {all : List Nat} :
    ∀ (l : List Nat), l ⊆ all → ∀ (st : List Nat × List String),
      TopoInv p all st → TopoInv p all (l.foldl (topoVisit p all) st) := by
  intro l
  induction l with
  | nil => intro _ st h; exact h
  | cons a l ih =>
    intro hl st h
    rw [List.foldl_cons]
    exact ih (fun x hx => hl (List.mem_cons_of_mem _ hx))
      _ (topoVisit_inv h (hl (List.mem_cons_self _ _)))

lemma topoStep_inv {p : Project} {all : List Nat} {st : List Nat × List String}
    (h : TopoInv p all st) : TopoInv p all (topoStep p all st) :=
  topoFold_inv all (fun _ hx => hx) st h

lemma topoFold_hits {p : Project} {all : List Nat} :
    ∀ (l : List Nat) (st : List Nat × List String) (u : Nat), u ∈ l →
      childrenDone p all st.2 u = true →
      compName p u ∈ (l.foldl (topoVisit p all) st).2 := by
  intro l
  induction l with
  | nil => intro st u hu; simp at hu
  | cons a l ih =>
    intro st u hu hcd
    rw [List.foldl_cons]
    obtain ⟨e1, h11, h12⟩ := topoVisit_ext p all st a
    rcases List.mem_cons.mp hu with h | h
    · subst h
      have hmem : compName p u ∈ (topoVisit p all st u).2 := by
        unfold topoVisit
        by_cases h1 : st.2.contains (compName p u)
        · rw [if_pos h1]
          simpa using h1
        · rw [if_neg h1, if_pos hcd]
          simp
      obtain ⟨e2, h21, h22⟩ := topoFold_ext p all l (topoVisit p all st u)
      rw [h22]
      exact List.mem_append.mpr (Or.inl hmem)
    · refine ih (topoVisit p all st a) u h ?_
      rw [h12]
      exact childrenDone_mono (List.subset_append_left _ _) hcd

lemma topoStep_progress {p : Project} {all : List Nat} {rank : Nat → Nat}
    (hrank : ∀ a ∈ all, ∀ b ∈ all, b ∈ compSources p (layersOf p a) → rank b < rank a)
    {st : List Nat × List String} :
    ∀ n u, u ∈ all → rank u ≤ n → compName p u ∉ st.2 →
      st.2.length < (topoStep p all st).2.length := by
  intro n
  induction n using Nat.strong_induction_on with
  | _ n ihn =>
    intro u hu hru hnm
    by_cases hbad : ∃ v ∈ all, v ∈ compSources p (layersOf p u) ∧ compName p v ∉ st.2
    · obtain ⟨v, hv, hvsrc, hvnm⟩ := hbad
      have hrv : rank v < rank u := hrank u hu v hv hvsrc
      exact ihn (rank v) (by omega) v hv (le_refl _) hvnm
    · push_neg at hbad
      have hcd : childrenDone p all st.2 u = true := by
        apply childrenDone_of
        intro b hb hball
        exact hbad b hball hb
      have hmem := topoFold_hits all st u hu hcd
      obtain ⟨ext, _, h2⟩ := topoFold_ext p all all st
      have : compName p u ∈ st.2 ++ ext.map (compName p) := by
        rw [← h2]
        exact hmem
      rcases List.mem_append.mp this with h | h
      · exact absurd h hnm
      · have hne : ext ≠ [] := by
          intro he
          rw [he] at h
          simp at h
        have : 0 < ext.length := List.length_pos.mpr hne
        unfold topoStep
        rw [h2, List.length_append, List.length_map]
        omega

lemma topoLoop_ext (p : Project) (all : List Nat) :
    ∀ (fuel : Nat) (st : List Nat × List String),
      ∃ ext, (topoLoop p all fuel st).1 = st.1 ++ ext ∧
        (topoLoop p all fuel st).2 = st.2 ++ ext.map (compName p) := by
  intro fuel
  induction fuel with
  | zero => intro st; exact ⟨[], by simp [topoLoop]⟩
  | succ fuel ih =>
    intro st
    unfold topoLoop
    by_cases hc : st.1.length < all.length
    · rw [if_pos hc]
      obtain ⟨e1, h11, h12⟩ := topoFold_ext p all all st
      obtain ⟨e2, h21, h22⟩ := ih (topoStep p all st)
      refine ⟨e1 ++ e2, ?_, ?_⟩
      · rw [h21]
        unfold topoStep
        rw [h11, List.append_assoc]
      · rw [h22]
        unfold topoStep
        rw [h12, List.map_append, List.append_assoc]
    · rw [if_neg hc]
      exact ⟨[], by simp⟩

lemma topoLoop_inv {p : Project} {all : List Nat} :
    ∀ (fuel : Nat) (st : List Nat × List String),
      TopoInv p all st → TopoInv p all (topoLoop p all fuel st) := by
  intro fuel
  induction fuel with
  | zero => intro st h; exact h
  | succ fuel ih =>
    intro st h
    unfold topoLoop
    by_cases hc : st.1.length < all.length
    · rw [if_pos hc]
      exact ih _ (topoStep_inv h)
    · rw [if_neg hc]
      exact h

lemma topoInv_len_le {p : Project} {all : List Nat} {st : List Nat × List String}
    (h : TopoInv p all st) : st.2.length ≤ all.length := by
  obtain ⟨hmap, hsub, hnd, _⟩ := h
  have hnd1 : st.1.Nodup := List.Nodup.of_map _ (hmap ▸ hnd)
  have := (hnd1.subperm hsub).length_le
  rw [hmap, List.length_map]
  exact this

lemma topoLoop_complete {p : Project} {all : List Nat} {rank : Nat → Nat}
    (hrank : ∀ a ∈ all, ∀ b ∈ all, b ∈ compSources p (layersOf p a) → rank b < rank a) :
    ∀ (fuel : Nat) (st : List Nat × List String), TopoInv p all st →
      all.length + 1 ≤ fuel + st.2.length →
      ∀ x ∈ all, compName p x ∈ (topoLoop p all fuel st).2 := by
  intro fuel
  induction fuel with
  | zero =>
    intro st hinv hbound x hx
    have := topoInv_len_le hinv
    omega
  | succ fuel ih =>
    intro st hinv hbound x hx
    unfold topoLoop
    by_cases hc : st.1.length < all.length
    · rw [if_pos hc]
      by_cases hdone : ∀ y ∈ all, compName p y ∈ st.2
      · obtain ⟨ext, _, h2⟩ := topoLoop_ext p all fuel (topoStep p all st)
        obtain ⟨e1, _, h12⟩ := topoFold_ext p all all st
        rw [h2]
        apply List.mem_append.mpr
        left
        unfold topoStep
        rw [h12]
        exact List.mem_append.mpr (Or.inl (hdone x hx))
      · push_neg at hdone
        obtain ⟨y, hy, hynm⟩ := hdone
        have hprog := topoStep_progress hrank (rank y) y hy (le_refl _) hynm
        exact ih (topoStep p all st) (topoStep_inv hinv) (by omega) x hx
    · rw [if_neg hc]
      obtain ⟨hmap, hsub, hnd, _⟩ := hinv
      have hnd1 : st.1.Nodup := List.Nodup.of_map _ (hmap ▸ hnd)
      have hperm : st.1.Perm all :=
        (hnd1.subperm hsub).perm_of_length_le (by omega)
      have hxin : x ∈ st.1 := hperm.mem_iff.mpr hx
      rw [hmap]
      exact List.mem_map.mpr ⟨x, hxin, rfl⟩

lemma topoInv_init (p : Project) (all : List Nat) :
    TopoInv p all ([], []) := by
  refine ⟨rfl, by simp, List.nodup_nil, ?_⟩
  intro k hk
  simp at hk

lemma topoSort_inv (p : Project) (all : List Nat) :
    TopoInv p all (topoLoop p all (all.length * all.length + 1) ([], [])) :=
  topoLoop_inv _ _ (topoInv_init p all)

lemma topoSort_subset (p : Project) (all : List Nat) : topoSort p all ⊆ all :=
  (topoSort_inv p all).2.1

lemma topoSort_names_eq (p : Project) (all : List Nat) :
    (topoLoop p all (all.length * all.length + 1) ([], [])).2 =
      (topoSort p all).map (compName p) :=
  (topoSort_inv p all).1

lemma topoSort_names_nodup (p : Project) (all : List Nat) :
    ((topoSort p all).map (compName p)).Nodup := by
  have h := (topoSort_inv p all).2.2.1
  rw [topoSort_names_eq] at h
  exact h

lemma topoSort_nodup (p : Project) (all : List Nat) : (topoSort p all).Nodup :=
  List.Nodup.of_map _ (topoSort_names_nodup p all)

lemma topoSort_order (p : Project) (all : List Nat) :
    ∀ k (h : k < (topoSort p all).length), ∀ b ∈ all,
      b ∈ compSources p (layersOf p (topoSort p all)[k]) →
      compName p b ∈ ((topoSort p all).take k).map (compName p) := by
  intro k hk b hb hsrc
  have h := (topoSort_inv p all).2.2.2 k hk b hb hsrc
  rw [topoSort_names_eq, ← List.map_take] at h
  exact h

lemma topoSort_names_complete {p : Project} {all : List Nat} {rank : Nat → Nat}
    (hrank : ∀ a ∈ all, ∀ b ∈ all, b ∈ compSources p (layersOf p a) → rank b < rank a) :
    ∀ x ∈ all, compName p x ∈ (topoSort p all).map (compName p) := by
  intro x hx
  have hb : all.length + 1 ≤ (all.length * all.length + 1) + ([] : List String).length := by
    have : all.length ≤ all.length * all.length := by
      cases hn : all.length with
      | zero => simp
      | succ n => exact hn ▸ Nat.le_mul_of_pos_left _ (by omega)
    simp
    omega
  have h := topoLoop_complete hrank (all.length * all.length + 1) ([], [])
    (topoInv_init p all) hb x hx
  rw [topoSort_names_eq] at h
  exact h

lemma topoSort_perm {p : Project} {all : List Nat} {rank : Nat → Nat}
    (hnames : (all.map (compName p)).Nodup)
    (hrank : ∀ a ∈ all, ∀ b ∈ all, b ∈ compSources p (layersOf p a) → rank b < rank a) :
    (topoSort p all).Perm all := by
  have hsub : topoSort p all ⊆ all := topoSort_subset p all
  have hnd : (topoSort p all).Nodup := topoSort_nodup p all
  have hall : all ⊆ topoSort p all := by
    intro x hx
    have hnm := topoSort_names_complete hrank x hx
    rcases List.mem_map.mp hnm with ⟨y, hy, hynm⟩
    have : y = x := List.inj_on_of_nodup_map hnames (hsub hy) hx hynm
    rw [← this]
    exact hy
  exact (hnd.subperm hsub).antisymm ((List.Nodup.of_map _ hnames).subperm hall)

-- Deep search refinement lemmas

lemma option_match_bind {α β : Type} (o : Option α) (f : α → Option β) :
    (match o with | some s => f s | none => none) = o.bind f := by
  cases o <;> rfl

lemma find?_flatten_map {α β : Type} (q : β → Bool) (f : α → List β) :
    ∀ xs : List α, ((xs.map f).flatten.find? q) = xs.findSome? (fun x => (f x).find? q) := by
  intro xs
  induction xs with
  | nil => simp
  | cons a xs ih =>
    rw [List.map_cons, List.flatten_cons, List.find?_append, List.findSome?_cons, ih]
    cases (f a).find? q <;> simp

lemma findSome?_filterMap {α β γ : Type} (g : α → Option β) (h : β → Option γ) :
    ∀ xs : List α, ((xs.filterMap g).findSome? h) = xs.findSome? (fun x => (g x).bind h) := by
  intro xs
  induction xs with
  | nil => simp
  | cons a xs ih =>
    rw [List.filterMap_cons]
    cases hg : g a with
    | none => rw [List.findSome?_cons]; simp only [hg, Option.none_bind]; exact ih
    | some b =>
      rw [List.findSome?_cons, List.findSome?_cons]
      simp only [hg, Option.some_bind]
      cases h b <;> simp [ih]

lemma findSome?_map_proj {α β γ : Type} (f : α → Option β) (proj : β → γ) :
    ∀ xs : List α, (xs.findSome? f).map proj = xs.findSome? (fun x => (f x).map proj) := by
  intro xs
  induction xs with
  | nil => simp
  | cons a xs ih =>
    rw [List.findSome?_cons, List.findSome?_cons]
    cases f a <;> simp [ih]

lemma ownEntries_find (c : Nat) (n : String) :
    ∀ (ls : List Layer) (k : Nat),
      (ownEntries c k ls).find? (fun t => t.2.2 == n) =
        (ls.findIdx? (fun l => l.name == n) k).map (fun i => (c, i, n)) := by
  intro ls
  induction ls with
  | nil => intro k; simp [ownEntries]
  | cons l ls ih =>
    intro k
    rw [ownEntries, List.find?_cons]
    by_cases hn : l.name == n
    · have hname : l.name = n := by simpa using hn
      simp only [hn]
      rw [List.findIdx?_cons, if_pos hn]
      simp [hname]
    · have hf : (l.name == n) = false := by simpa using hn
      simp only [hf]
      rw [List.findIdx?_cons, if_neg (by simp [hf])]
      exact ih (k+1)

/-- `findLayerDeep` returns exactly the first matching entry of the
spec's depth-first, reference-order visit sequence. -/
lemma findLayerDeep_eq_spec (p : Project) (n : String) :
    ∀ (fuel : Nat) (c : Nat), findLayerDeep p fuel c n = findByNameSpec p fuel c n := by
  intro fuel
  induction fuel with
  | zero =>
    intro c
    simp [findLayerDeep, findByNameSpec, specVisit]
  | succ fuel ih =>
    intro c
    rw [findLayerDeep]
    unfold findByNameSpec
    rw [specVisit, List.find?_append]
    cases hidx : (layersOf p c).findIdx? (fun l => l.name == n) with
    | some i =>
      unfold findDeepStep
      rw [ownEntries_find c n (layersOf p c) 0, hidx]
      simp
    | none =>
      unfold findDeepStep
      rw [ownEntries_find c n (layersOf p c) 0, hidx]
      simp only [Option.map_none', Option.none_or]
      rw [find?_flatten_map, findSome?_map_proj]
      unfold compSources
      rw [findSome?_filterMap]
      simp only [ih]
      have hbody : ∀ l, (match compSourceOf p l with
          | some s => findByNameSpec p fuel s n
          | none => none) =
          (compSourceOf p l).bind (fun x =>
            Option.map (fun t => (t.1, t.2.1))
              (List.find? (fun t => t.2.2 == n) (specVisit p fuel x))) := by
        intro l
        cases compSourceOf p l with
        | none => rfl
        | some s => rfl
      simp only [hbody]

-- CSV quoting lemmas

lemma csvLineGo_esc (s : List Char) : ∀ cur acc,
    csvLineGo (escQuotes s ++ ['"']) true cur acc = acc ++ [cur ++ s] := by
  induction s with
  | nil =>
    intro cur acc
    simp only [escQuotes, List.nil_append, List.append_nil]
    rw [csvLineGo.eq_3 _ _ _ (by intro r h; cases h), csvLineGo.eq_1]
  | cons c cs ih =>
    intro cur acc
    by_cases hq : c = '"'
    · subst hq
      have he : escQuotes ('"' :: cs) ++ ['"'] = '"' :: '"' :: (escQuotes cs ++ ['"']) := by
        simp [escQuotes]
      rw [he, csvLineGo.eq_2, ih]
      simp
    · have he : escQuotes (c :: cs) ++ ['"'] = c :: (escQuotes cs ++ ['"']) := by
        simp [escQuotes, hq]
      by_cases hc : c = ','
      · subst hc
        rw [he, csvLineGo.eq_5]
        simp only [if_pos rfl]
        rw [ih]
        simp
      · rw [he, csvLineGo.eq_6 _ _ _ _ _ (fun h => hc h) (fun _ h _ _ => hq h)
            (fun h _ => hq h) (fun h _ => hq h), ih]
        simp

lemma parseCSVLine_quoted (s : List Char) :
    parseCSVLine (String.mk ('"' :: escQuotes s ++ ['"'])) = [String.mk s] := by
  have h1 : (String.mk ('"' :: escQuotes s ++ ['"'])).data = '"' :: (escQuotes s ++ ['"']) := rfl
  rw [parseCSVLine, h1, csvLineGo.eq_4, csvLineGo_esc]
  simp

-- ════════════════════════════════════════════════════════════
-- Claims
-- ════════════════════════════════════════════════════════════

/-- C3, counterexample to the claim as stated: on the cyclic graph
`exProjCyc` (master 0 references 1, 1 references 2, 2 references 1
back), discovery returns normally with the deduplicated set, the
ordering step silently returns the empty partial order instead of
failing with `GraphError(CyclicReference)`, and duplication proceeds,
leaving the master duplicate (item 3) still pointing at the original
container 1. -/
theorem C3_counterexample :
    discoverAllSubComps exProjCyc 0 = [1, 2] ∧
    topoSort exProjCyc [1, 2] = [] ∧
    (duplicateFullTree exProjCyc 0 "en" "EN" "_PRECOMPS").2 = [("M", 3)] ∧
    layersOf (duplicateFullTree exProjCyc 0 "en" "EN" "_PRECOMPS").1 3 =
      [⟨"a", LayerContent.source 1⟩] := by
  refine ⟨by decide, by decide, by decide, by decide⟩

/-- C3, amended: on every graph, cyclic ones included, discovery
terminates and returns each container at most once (the collected-set
membership check, not an error, is what guards the cycle), and the
ordering loop terminates within its `n*n+1` iteration bound returning
a duplicate-free subset of its input; no error is ever raised, and on
a cyclic input the result is silently partial (see the
counterexample). -/
theorem C3_cycle_behavior :
    (∀ (p : Project) (c : Nat), (discoverAllSubComps p c).Nodup) ∧
    (∀ (p : Project) (all : List Nat),
      (topoSort p all).Nodup ∧ topoSort p all ⊆ all) := by
  constructor
  · intro p c
    exact (discover_spec p c).1
  · intro p all
    exact ⟨topoSort_nodup p all, topoSort_subset p all⟩

/-- C4, counterexample to the claim as stated: `exProjColl` is acyclic
(every reference strictly decreases the identity, an explicit rank),
its discovered set is `[1, 2, 3]`, but compositions 1 and 3 share the
name `N`, so the name-keyed `processed` set of the ordering step skips
composition 3 forever and the result is not a permutation of the
input. -/
theorem C4_counterexample :
    discoverAllSubComps exProjColl 0 = [1, 2, 3] ∧
    (∀ a ∈ [1, 2, 3], ∀ b ∈ [1, 2, 3],
      b ∈ compSources exProjColl (layersOf exProjColl a) → b < a) ∧
    ¬ (topoSort exProjColl [1, 2, 3]).Perm [1, 2, 3] := by
  refine ⟨by decide, by decide, by decide⟩

/-- C4, amended: for every acyclic input set (witnessed by a rank
function decreasing along reference edges) whose container names are
pairwise distinct, the ordering step produces a permutation of the
input in which every directly referenced in-set container appears
strictly before its referrer. -/
theorem C4_order (p : Project) (all : List Nat) (rank : Nat → Nat)
    (hnames : (all.map (compName p)).Nodup)
    (hrank : ∀ a ∈ all, ∀ b ∈ all, b ∈ compSources p (layersOf p a) → rank b < rank a) :
    (topoSort p all).Perm all ∧
    ∀ k (hk : k < (topoSort p all).length), ∀ b ∈ all,
      b ∈ compSources p (layersOf p (topoSort p all)[k]) →
      b ∈ (topoSort p all).take k := by
  refine ⟨topoSort_perm hnames hrank, ?_⟩
  intro k hk b hb hsrc
  have h := topoSort_order p all k hk b hb hsrc
  rcases List.mem_map.mp h with ⟨y, hy, hynm⟩
  have hyall : y ∈ all := topoSort_subset p all (List.take_subset _ _ hy)
  have heq : y = b := List.inj_on_of_nodup_map hnames hyall hb hynm
  rw [← heq]
  exact hy

/-- C4 witness: the amended theorem applied to the concrete acyclic
chain with distinct names. -/
theorem C4_witness : (topoSort exProjChain [1, 2]).Perm [1, 2] :=
  (C4_order exProjChain [1, 2] (fun i => 3 - i) (by decide) (by decide)).1

/-- C5, counterexample to the claim as stated: the shallow pass of
`findLayerDeep` does not match Leaves only.  In `exProjShadow` the
root's direct layer `T` is a reference to a sub-container; the code
returns that container reference (owner 0, index 0), while the
claim's leaves-only search would descend and return the text leaf `T`
inside container 1. -/
theorem C5_counterexample :
    findLayerDeep exProjShadow 3 0 "T" = some (0, 0) ∧
    findByNameLeafOnly exProjShadow 3 0 "T" = some (1, 0) ∧
    findLayerDeep exProjShadow 3 0 "T" ≠ findByNameLeafOnly exProjShadow 3 0 "T" := by
  refine ⟨by decide, by decide, by decide⟩

/-- C5, amended: deep name resolution performs the two-phase search
with the shallow pass matching any direct Reference by name
(containers included, not Leaves only), then recurses into each child
container in Reference order repeating the scheme; the result is
exactly the first match of that visit order, returned together with
its owning container (the pair is owner id and layer index). -/
theorem C5_first_match :
    ∀ (p : Project) (fuel c : Nat) (n : String),
      findLayerDeep p fuel c n = findByNameSpec p fuel c n :=
  fun p fuel c n => findLayerDeep_eq_spec p n fuel c

/-- C6, counterexample to the claim as stated: a quoted field holding
a comma, an embedded line break and a doubled quote is split at the
line break, because `parseCSV` splits the raw text into physical lines
before any quote handling.  The claim predicts the single row
`[("v", "a,\nb\"c")]`; the code produces two rows. -/
theorem C6_counterexample :
    (parseCSV "v\n\"a,\nb\"\"c\"").rows = [[("v", "a,")], [("v", "bc")]] ∧
    (parseCSV "v\n\"a,\nb\"\"c\"").rows ≠ [[("v", "a,\nb\"c")]] := by
  refine ⟨by decide, by decide⟩

/-- C6, amended: within one physical line the parser does respect
quoting: for every field content, wrapping it in quotes with embedded
quote characters doubled parses back to exactly that single field
(commas and doubled quotes included, unescaped); in particular the
spec's own example `"He said ""hi"", twice"` yields the literal
`He said "hi", twice`.  Only embedded line breaks are not supported,
as the counterexample shows. -/
theorem C6_quoting :
    (∀ s : String, parseCSVLine (quoteField s) = [s]) ∧
    parseCSVLine "\"He said \"\"hi\"\", twice\"" = ["He said \"hi\", twice"] := by
  constructor
  · intro s
    obtain ⟨l⟩ := s
    exact parseCSVLine_quoted l
  · decide

/-- C7, counterexample to the claim as stated: locale detection is not
plain inequality with the reserved names.  A header `Comp_Name` is not
equal to any reserved column name, yet the code lowercases before
comparing and drops it; an empty header is likewise dropped.  The
claim's reading `detectLocalesClaimed` keeps both. -/
theorem C7_counterexample :
    detectLanguages ["Comp_Name", "", "en"] = ["en"] ∧
    detectLocalesClaimed ["Comp_Name", "", "en"] = ["Comp_Name", "", "en"] ∧
    detectLanguages ["Comp_Name", "", "en"] ≠ detectLocalesClaimed ["Comp_Name", "", "en"] := by
  refine ⟨by decide, by decide, by decide⟩

/-- C7, amended: `detectLanguages` returns exactly the headers that
are non-empty and whose lowercasing is not a reserved column name,
preserving header order (it is the order-preserving filter with that
predicate); and a manifest yielding zero locale columns aborts the run
with the project untouched and all counters zero. -/
theorem C7_detect :
    (∀ headers : List String, detectLanguages headers =
      headers.filter (fun h => !(reservedColumns.contains (jsToLower h)) && h != "")) ∧
    (∀ (p : Project) (fs : List String) (csv : String),
      detectLanguages (parseCSV csv).headers = [] →
      runMain p fs csv = ⟨p, ⟨0, 0, 0⟩, []⟩) := by
  constructor
  · intro headers
    rfl
  · intro p fs csv h
    unfold runMain
    rw [if_pos h]

/-- C7 witness: a manifest with only reserved headers aborts with the
project unchanged. -/
theorem C7_witness :
    runMain exProj [] "comp_name,layer_name,type" = ⟨exProj, ⟨0, 0, 0⟩, []⟩ :=
  C7_detect.2 exProj [] "comp_name,layer_name,type" (by decide)

/-- C8: a manifest row whose value for the current locale is empty or
absent is skipped: the skipped counter is incremented and nothing else
changes; in particular the project (hence every leaf) is untouched for
that row-locale pair. -/
theorem C8_skip (fs : List String) (allDupes : List (String × Nat)) (lang : String)
    (st : RunState) (row : Row) (h : rowField row lang = "") :
    applyRow fs allDupes lang st row =
      { st with stats := { st.stats with skipped := st.stats.skipped + 1 } } := by
  unfold applyRow
  rw [if_pos h]

/-- C8 witness: the skip theorem at the concrete row whose `en-US`
value is empty. -/
theorem C8_witness :
    applyRow [] [] "en-US" ⟨exProj, ⟨0, 0, 0⟩, []⟩ exRowEmpty = ⟨exProj, ⟨0, 1, 0⟩, []⟩ := by
  rw [C8_skip [] [] "en-US" ⟨exProj, ⟨0, 0, 0⟩, []⟩ exRowEmpty (by decide)]

-- Error log lemmas

lemma recordFail_log_full {st : RunState} {msg : String} (h : 20 ≤ st.errorLog.length) :
    (recordFail st msg).errorLog = st.errorLog := by
  unfold recordFail
  simp only []
  rw [if_neg (by omega)]

lemma recordFail_errors {st : RunState} {msg : String} :
    (recordFail st msg).stats.errors = st.stats.errors + 1 := rfl

lemma applyRow_cap {fs : List String} {ad : List (String × Nat)} {lang : String}
    {st : RunState} {row : Row} (h : 20 ≤ st.errorLog.length) :
    (applyRow fs ad lang st row).errorLog = st.errorLog := by
  unfold applyRow
  dsimp only
  split
  · rfl
  · split
    · exact recordFail_log_full h
    · split
      · exact recordFail_log_full h
      · split
        · rfl
        · exact @recordFail_log_full { st with proj := _ } _ h

lemma applyRow_fail_append {fs : List String} {ad : List (String × Nat)} {lang : String}
    {st : RunState} {row : Row} (hlt : st.errorLog.length < 20)
    (hfail : (applyRow fs ad lang st row).stats.errors = st.stats.errors + 1) :
    (applyRow fs ad lang st row).errorLog.length = st.errorLog.length + 1 := by
  unfold applyRow at hfail ⊢
  dsimp only at hfail ⊢
  by_cases hv : rowField row lang = ""
  · rw [if_pos hv] at hfail
    simp at hfail
  · rw [if_neg hv] at hfail ⊢
    cases hd : List.lookup (rowField row "comp_name") ad with
    | none =>
      simp only [hd] at hfail ⊢
      unfold recordFail
      dsimp only
      rw [if_pos hlt]
      simp
    | some dm =>
      simp only [hd] at hfail ⊢
      cases hfound : findLayerDeep st.proj (st.proj.items.length + 1) dm
          (rowField row "layer_name") with
      | none =>
        simp only [hfound] at hfail ⊢
        unfold recordFail
        dsimp only
        rw [if_pos hlt]
        simp
      | some ci =>
        simp only [hfound] at hfail ⊢
        by_cases hok : (dispatchReplace st.proj fs (jsToLower (effType (rowField row "type")))
            ci.1 ci.2 (rowField row lang)).2 = true
        · rw [if_pos hok] at hfail
          dsimp only at hfail
          omega
        · rw [if_neg hok] at hfail ⊢
          unfold recordFail
          dsimp only
          rw [if_pos hlt]
          simp

lemma applyRow_log_le {fs : List String} {ad : List (String × Nat)} {lang : String}
    {st : RunState} {row : Row} (h : st.errorLog.length ≤ 20) :
    (applyRow fs ad lang st row).errorLog.length ≤ 20 := by
  unfold applyRow
  dsimp only
  split
  · exact h
  all_goals (
    first
    | (split
       · unfold recordFail
         split
         · simp only [List.length_append, List.length_singleton]
           omega
         · exact h
       · split
         · unfold recordFail
           split
           · simp only [List.length_append, List.length_singleton]
             omega
           · exact h
         · split
           · exact h
           · unfold recordFail
             dsimp only
             split
             · simp only [List.length_append, List.length_singleton]
               omega
             · exact h))

lemma foldl_applyRow_log_le {fs : List String} {ad : List (String × Nat)} {lang : String} :
    ∀ (rows : List Row) (st : RunState), st.errorLog.length ≤ 20 →
      ((rows.foldl (applyRow fs ad lang) st).errorLog.length ≤ 20) := by
  intro rows
  induction rows with
  | nil => intro st h; exact h
  | cons r rows ih =>
    intro st h
    rw [List.foldl_cons]
    exact ih _ (applyRow_log_le h)

lemma runLanguage_log_le {fs : List String} {mids : List Nat} {rows : List Row}
    {st : RunState} {lang : String} (h : st.errorLog.length ≤ 20) :
    (runLanguage fs mids rows st lang).errorLog.length ≤ 20 := by
  unfold runLanguage
  exact foldl_applyRow_log_le rows _ h

lemma foldl_runLanguage_log_le {fs : List String} {mids : List Nat} {rows : List Row} :
    ∀ (langs : List String) (st : RunState), st.errorLog.length ≤ 20 →
      ((langs.foldl (runLanguage fs mids rows) st).errorLog.length ≤ 20) := by
  intro langs
  induction langs with
  | nil => intro st h; exact h
  | cons lg langs ih =>
    intro st h
    rw [List.foldl_cons]
    exact ih _ (runLanguage_log_le h)

lemma runMain_log_le (p : Project) (fs : List String) (csv : String) :
    (runMain p fs csv).errorLog.length ≤ 20 := by
  unfold runMain
  dsimp only
  split
  · simp
  · split
    · simp
    · exact foldl_runLanguage_log_le _ _ (by simp)

/-- C9: the error log is capped at 20 literal entries.  Once the log
holds 20 entries a failing row increases only the error count and
appends nothing; while the log is below the cap every failure (error
count incremented) appends exactly one entry; and the log produced by
a whole run never exceeds 20 entries. -/
theorem C9_cap :
    (∀ (fs : List String) (ad : List (String × Nat)) (lang : String)
        (st : RunState) (row : Row), 20 ≤ st.errorLog.length →
        (applyRow fs ad lang st row).errorLog = st.errorLog) ∧
    (∀ (fs : List String) (ad : List (String × Nat)) (lang : String)
        (st : RunState) (row : Row), st.errorLog.length < 20 →
        (applyRow fs ad lang st row).stats.errors = st.stats.errors + 1 →
        (applyRow fs ad lang st row).errorLog.length = st.errorLog.length + 1) ∧
    (∀ (p : Project) (fs : List String) (csv : String),
      (runMain p fs csv).errorLog.length ≤ 20) :=
  ⟨fun _ _ _ _ _ h => applyRow_cap h,
   fun _ _ _ _ _ hlt hfail => applyRow_fail_append hlt hfail,
   runMain_log_le⟩

/-- C9 witness: a failing row (its master name has no duplicate) hits
the full 20-entry log of `exFullLogState` and appends nothing. -/
theorem C9_witness :
    (applyRow [] [] "en-US" exFullLogState exRowAsset).errorLog = exFullLogState.errorLog :=
  C9_cap.1 [] [] "en-US" exFullLogState exRowAsset (by decide)

/-- C10: substitution dispatch.  A row whose type field, lowercased,
is neither `footage` nor `image` — the empty or missing type
(defaulted to `text`) and any unrecognized value such as `asset`
included — is applied as a text substitution; only `footage` and
`image` take the external-asset replacement path. -/
theorem C10_dispatch :
    (∀ (p : Project) (fs : List String) (c i : Nat) (v raw : String),
      jsToLower raw ≠ "footage" → jsToLower raw ≠ "image" →
      dispatchReplace p fs (jsToLower (effType raw)) c i v = replaceText p c i v) ∧
    (∀ (p : Project) (fs : List String) (c i : Nat) (v raw : String),
      jsToLower raw = "footage" ∨ jsToLower raw = "image" →
      dispatchReplace p fs (jsToLower (effType raw)) c i v = replaceFootage p fs c i v) := by
  constructor
  · intro p fs c i v raw h1 h2
    by_cases hr : raw = ""
    · subst hr
      rw [show jsToLower (effType "") = "text" from by decide]
      unfold dispatchReplace
      rw [if_neg (by decide)]
    · rw [show effType raw = raw from by simp [effType, hr]]
      unfold dispatchReplace
      rw [if_neg (by simp [h1, h2])]
  · intro p fs c i v raw h
    have hr : raw ≠ "" := by
      intro he
      subst he
      rcases h with h | h <;> exact absurd h (by decide)
    rw [show effType raw = raw from by simp [effType, hr]]
    unfold dispatchReplace
    rcases h with h | h
    · rw [if_pos (by simp [h])]
    · rw [if_pos (by simp [h])]

/-- C10 witness: an unrecognized type `asset` goes down the text path. -/
theorem C10_witness :
    dispatchReplace exProj [] (jsToLower (effType "asset")) 3 1 "x" = replaceText exProj 3 1 "x" :=
  C10_dispatch.1 exProj [] 3 1 "x" "asset" (by decide) (by decide)

-- Duplication fold lemmas

lemma ContentRel_append {q : Project} {dm ext : List (String × Nat)} {co cd : LayerContent}
    (h : ContentRel q dm co cd) : ContentRel q (dm ++ ext) co cd := by
  cases co with
  | source s =>
    simp only [ContentRel] at h ⊢
    by_cases hc : isCompId q s = true
    · rw [if_pos hc] at h ⊢
      obtain ⟨d, hd, hcd⟩ := h
      exact ⟨d, by rw [List.lookup_append, hd]; rfl, hcd⟩
    · rw [if_neg hc] at h ⊢
      exact h
  | text v => exact h
  | other => exact h

lemma LayersRel_append {q : Project} {dm ext : List (String × Nat)} {lo ld : List Layer}
    (h : LayersRel q dm lo ld) : LayersRel q (dm ++ ext) lo ld := by
  obtain ⟨hlen, hrel⟩ := h
  exact ⟨hlen, fun i h1 h2 => ⟨(hrel i h1 h2).1, ContentRel_append (hrel i h1 h2).2⟩⟩

lemma relinkLayer_name (q' : Project) (dm : List (String × Nat)) (l : Layer) :
    (relinkLayer q' dm l).name = l.name := by
  cases hc : l.content with
  | source s =>
    simp only [relinkLayer, hc]
    cases hl : lookupItem q' s with
    | none => rfl
    | some it =>
      cases it with
      | comp sn f ls =>
        cases hd : List.lookup sn dm with
        | none => simp only [hd]
        | some d => simp only [hd]
      | footage pa => rfl
  | text v => simp [relinkLayer, hc]
  | other => simp [relinkLayer, hc]

lemma isCompId_elim {p : Project} {x : Nat} (h : isCompId p x = true) :
    ∃ f ls, lookupItem p x = some (Item.comp (compName p x) f ls) := by
  cases hl : lookupItem p x with
  | none => simp [isCompId, hl] at h
  | some it =>
    cases it with
    | comp n f ls =>
      refine ⟨f, ls, ?_⟩
      have hn : compName p x = n := by simp [compName, hl]
      rw [hn]
    | footage pa => simp [isCompId, hl, isCompB] at h

lemma compSourceOf_elim {q : Project} {l : Layer} {s : Nat}
    (h : compSourceOf q l = some s) :
    l.content = LayerContent.source s ∧ isCompId q s = true := by
  cases hc : l.content with
  | source s' =>
    simp only [compSourceOf, hc] at h
    by_cases hi : isCompId q s' = true
    · rw [if_pos hi] at h
      cases h
      exact ⟨rfl, hi⟩
    · rw [if_neg hi] at h
      cases h
  | text v => simp [compSourceOf, hc] at h
  | other => simp [compSourceOf, hc] at h

lemma compSourceOf_intro {q : Project} {l : Layer} {s : Nat}
    (hc : l.content = LayerContent.source s) (hi : isCompId q s = true) :
    compSourceOf q l = some s := by
  simp [compSourceOf, hc, hi]

lemma relinkLayer_content_rel (q q1 : Project) (dm1 : List (String × Nat)) (l : Layer)
    (hsrc : ∀ s, l.content = LayerContent.source s → lookupItem q1 s = lookupItem q s)
    (hnames : ∀ s, l.content = LayerContent.source s → isCompId q s = true →
        (dm1.lookup (compName q s)).isSome = true) :
    ContentRel q dm1 l.content (relinkLayer q1 dm1 l).content := by
  cases hc : l.content with
  | text v =>
    simp only [relinkLayer, hc, ContentRel]
  | other =>
    simp only [relinkLayer, hc, ContentRel]
  | source s =>
    have hlook := hsrc s hc
    simp only [relinkLayer, hc, ContentRel]
    by_cases hcomp : isCompId q s = true
    · rw [if_pos hcomp]
      obtain ⟨f, ls, hqs⟩ := isCompId_elim hcomp
      rw [hlook, hqs]
      obtain ⟨d, hd⟩ := Option.isSome_iff_exists.mp (hnames s hc hcomp)
      simp only [hd]
      exact ⟨d, rfl, rfl⟩
    · rw [if_neg hcomp]
      rw [hlook]
      cases hq : lookupItem q s with
      | none => exact hc
      | some it =>
        cases it with
        | comp n f ls =>
          exact absurd (by simp [isCompId, hq, isCompB]) hcomp
        | footage pa => exact hc

lemma addItem_fst_nextId (q : Project) (it : Item) : (addItem q it).1.nextId = q.nextId + 1 := rfl

lemma addItem_snd (q : Project) (it : Item) : (addItem q it).2 = q.nextId := rfl

lemma updateItem_nextId (q : Project) (i : Nat) (f : Item → Item) :
    (updateItem q i f).nextId = q.nextId := rfl

lemma lookupItem_addItem_ne {q : Project} {it : Item} {s : Nat} (h : s ≠ q.nextId) :
    lookupItem (addItem q it).1 s = lookupItem q s := by
  unfold lookupItem addItem
  rw [List.lookup_append]
  cases hl : List.lookup s q.items with
  | some x => rfl
  | none =>
    simp only [Option.none_or]
    rw [List.lookup_cons]
    have : (s == q.nextId) = false := beq_false_of_ne h
    rw [this]
    rfl

lemma addItem_bound {q : Project} {it : Item} (h : ∀ e ∈ q.items, e.1 < q.nextId) :
    ∀ e ∈ (addItem q it).1.items, e.1 < (addItem q it).1.nextId := by
  intro e he
  rcases List.mem_append.mp he with h1 | h1
  · have := h e h1
    rw [addItem_fst_nextId]
    omega
  · simp at h1
    subst h1
    rw [addItem_fst_nextId]
    simp

lemma updateItem_bound {q : Project} {i : Nat} {f : Item → Item}
    (h : ∀ e ∈ q.items, e.1 < q.nextId) :
    ∀ e ∈ (updateItem q i f).items, e.1 < (updateItem q i f).nextId := by
  intro e he
  rcases List.mem_map.mp he with ⟨e', he', heq⟩
  have := h e' he'
  rw [updateItem_nextId]
  by_cases hc : e'.1 = i
  · rw [if_pos hc] at heq
    rw [← heq]
    simpa [hc] using this
  · rw [if_neg hc] at heq
    rw [← heq]
    exact this

lemma layerSrcBound_elim {n : Nat} {l : Layer} {s : Nat}
    (hb : layerSrcBound n l = true) (hc : l.content = LayerContent.source s) : s < n := by
  simp only [layerSrcBound, hc] at hb
  exact of_decide_eq_true hb

lemma layerSrcBound_intro {n : Nat} {l : Layer}
    (h : ∀ s, l.content = LayerContent.source s → s < n) : layerSrcBound n l = true := by
  cases hc : l.content with
  | source s => simp only [layerSrcBound, hc]; exact decide_eq_true (h s hc)
  | text v => simp [layerSrcBound, hc]
  | other => simp [layerSrcBound, hc]

lemma layerSrcBound_mono {n n' : Nat} {l : Layer} (hle : n ≤ n')
    (h : layerSrcBound n l = true) : layerSrcBound n' l = true := by
  cases hc : l.content with
  | source s =>
    simp only [layerSrcBound, hc] at h ⊢
    have := of_decide_eq_true h
    exact decide_eq_true (by omega)
  | text v => simp [layerSrcBound, hc]
  | other => simp [layerSrcBound, hc]

lemma addItem_items {q : Project} {it : Item} :
    (addItem q it).1.items = q.items ++ [(q.nextId, it)] := rfl

lemma updateItem_items {q : Project} {i : Nat} {f : Item → Item} :
    (updateItem q i f).items = q.items.map (fun e => if e.1 = i then (e.1, f e.2) else e) := rfl

lemma dupOne_eq {suffix folder : String} {q0 : Project} {dm0 : List (String × Nat)}
    {o : Nat} {n f0 : String} {lo : List Layer}
    (h : lookupItem q0 o = some (Item.comp n f0 lo)) :
    dupOne suffix folder (q0, dm0) o =
      (updateItem (addItem q0 (Item.comp (n ++ "_" ++ suffix) folder lo)).1 q0.nextId
        (relinkItem (addItem q0 (Item.comp (n ++ "_" ++ suffix) folder lo)).1
          (jsSet dm0 n q0.nextId)),
       jsSet dm0 n q0.nextId) := by
  simp only [dupOne, h, addItem_snd]

lemma dupOne_spec (q : Project) (origs : List Nat) (suffix folder : String)
    (hwfb : ∀ e ∈ q.items, e.1 < q.nextId ∧ ∀ l ∈ itemLayers e.2, layerSrcBound q.nextId l = true)
    (q0 : Project) (dm0 : List (String × Nat)) (o : Nat)
    (ho : o ∈ origs)
    (hoc : isCompId q o = true)
    (hnot : compName q o ∉ dm0.map Prod.fst)
    (hsrcn : ∀ s ∈ compSources q (layersOf q o),
        compName q s ∈ dm0.map Prod.fst ∨ compName q s = compName q o)
    (hinv : DInv q origs suffix q0 dm0) :
    DInv q origs suffix (dupOne suffix folder (q0, dm0) o).1 (dupOne suffix folder (q0, dm0) o).2 ∧
    (dupOne suffix folder (q0, dm0) o).2 = dm0 ++ [(compName q o, q0.nextId)] := by
  obtain ⟨hnext, hpres, hbound, hsrcb, hkeys, hvals, hdupes, hfresh⟩ := hinv
  obtain ⟨f0, lo, hqo⟩ := isCompId_elim hoc
  have holt : o < q.nextId := (hwfb _ (lookup_mem hqo)).1
  have hlob : ∀ l ∈ lo, layerSrcBound q.nextId l = true := by
    have := (hwfb _ (lookup_mem hqo)).2
    simpa [itemLayers] using this
  have hlo : layersOf q o = lo := by simp [layersOf, hqo, itemLayers]
  have hq0o : lookupItem q0 o = some (Item.comp (compName q o) f0 lo) := by
    rw [hpres o holt]
    exact hqo
  rw [dupOne_eq hq0o]
  set X : Item := Item.comp (compName q o ++ "_" ++ suffix) folder lo with hX
  set q1 : Project := (addItem q0 X).1 with hq1
  set dm1 : List (String × Nat) := jsSet dm0 (compName q o) q0.nextId with hdm1
  have hjs : dm1 = dm0 ++ [(compName q o, q0.nextId)] := jsSet_append_of_not_mem hnot
  set q2 : Project := updateItem q1 q0.nextId (relinkItem q1 dm1) with hq2
  have hb1 : ∀ e ∈ q1.items, e.1 < q1.nextId := addItem_bound hbound
  have hq1n : q1.nextId = q0.nextId + 1 := rfl
  have hq2n : q2.nextId = q0.nextId + 1 := rfl
  have hl1 : ∀ s, s ≠ q0.nextId → lookupItem q1 s = lookupItem q0 s :=
    fun s hs => lookupItem_addItem_ne hs
  have hl2 : ∀ s, s ≠ q0.nextId → lookupItem q2 s = lookupItem q0 s := by
    intro s hs
    rw [hq2, lookupItem_updateItem_ne hs, hl1 s hs]
  have hl1d : lookupItem q1 q0.nextId = some X := lookupItem_addItem_self hbound
  have hl2d : lookupItem q2 q0.nextId =
      some (Item.comp (compName q o ++ "_" ++ suffix) folder (lo.map (relinkLayer q1 dm1))) := by
    rw [hq2, lookupItem_updateItem, if_pos rfl, hl1d]
    rfl
  have horig : ∀ s, s < q.nextId → lookupItem q1 s = lookupItem q s := by
    intro s hs
    rw [hl1 s (by omega), hpres s hs]
  have hrel : ∀ l ∈ lo, ContentRel q dm1 l.content (relinkLayer q1 dm1 l).content := by
    intro l hl
    apply relinkLayer_content_rel
    · intro s hcs
      exact horig s (layerSrcBound_elim (hlob l hl) hcs)
    · intro s hcs hcomp
      apply lookup_isSome_of_mem_keys
      have hmem : s ∈ compSources q (layersOf q o) := by
        rw [hlo]
        exact mem_compSources.mpr ⟨l, hl, compSourceOf_intro hcs hcomp⟩
      rcases hsrcn s hmem with h1 | h1
      · rw [hjs, List.map_append]
        exact List.mem_append.mpr (Or.inl h1)
      · rw [hjs, List.map_append, h1]
        simp
  have hvals1 : ∀ e ∈ dm1, q.nextId ≤ e.2 ∧ e.2 < q2.nextId := by
    intro e he
    rw [hjs] at he
    rcases List.mem_append.mp he with h1 | h1
    · have := hvals e h1
      rw [hq2n]
      omega
    · simp at h1
      rw [h1, hq2n]
      simp only []
      omega
  have hlay2 : layersOf q2 q0.nextId = lo.map (relinkLayer q1 dm1) := by
    simp [layersOf, hl2d, itemLayers]
  have hlsb : ∀ lorig ∈ lo, layerSrcBound q2.nextId (relinkLayer q1 dm1 lorig) = true := by
    intro lorig hlorig
    have hcr := hrel lorig hlorig
    apply layerSrcBound_intro
    intro s hcs
    cases hcor : lorig.content with
    | text v =>
      rw [hcor] at hcr
      simp only [ContentRel] at hcr
      rw [hcr] at hcs
      cases hcs
    | other =>
      rw [hcor] at hcr
      simp only [ContentRel] at hcr
      rw [hcr] at hcs
      cases hcs
    | source s0 =>
      rw [hcor] at hcr
      simp only [ContentRel] at hcr
      by_cases hc0 : isCompId q s0 = true
      · rw [if_pos hc0] at hcr
        obtain ⟨d', hd', hcd'⟩ := hcr
        rw [hcd'] at hcs
        cases hcs
        exact (hvals1 _ (lookup_mem hd')).2
      · rw [if_neg hc0] at hcr
        rw [hcr] at hcs
        cases hcs
        have := layerSrcBound_elim (hlob lorig hlorig) hcor
        rw [hq2n]
        omega
  refine ⟨⟨?_, ?_, ?_, ?_, ?_, hvals1, ?_, ?_⟩, hjs⟩
  · rw [hq2n, hjs, List.length_append]
    simp only [List.length_singleton]
    omega
  · intro id hid
    rw [hl2 id (by omega), hpres id hid]
  · exact updateItem_bound hb1
  · intro e he
    rw [hq2, updateItem_items] at he
    rcases List.mem_map.mp he with ⟨e', he', heq⟩
    rw [hq1, addItem_items] at he'
    by_cases hck : e'.1 = q0.nextId
    · rw [if_pos hck] at heq
      have he'' : e' = (q0.nextId, X) := by
        rcases List.mem_append.mp he' with h1 | h1
        · have := hbound e' h1
          omega
        · simpa using h1
      rw [← heq, he'']
      intro l hl
      simp only [he'', hX, relinkItem, itemLayers] at hl ⊢
      rcases List.mem_map.mp hl with ⟨lorig, hlorig, hleq⟩
      rw [← hleq]
      exact hlsb lorig hlorig
    · rw [if_neg hck] at heq
      rw [← heq]
      rcases List.mem_append.mp he' with h1 | h1
      · intro l hl
        apply layerSrcBound_mono (n := q0.nextId) (by rw [hq2n]; omega)
        exact hsrcb e' h1 l hl
      · simp at h1
        rw [h1] at hck
        simp at hck
  · rw [hjs, List.map_append, List.nodup_append]
    refine ⟨hkeys, by simp, ?_⟩
    intro x hx hx2
    simp at hx2
    rw [hx2] at hx
    exact hnot hx
  · intro e he
    rw [hjs] at he
    rcases List.mem_append.mp he with h1 | h1
    · obtain ⟨o', ho', hname, fold, ld, hlk, hlr⟩ := hdupes e h1
      refine ⟨o', ho', hname, fold, ld, ?_, ?_⟩
      · rw [hl2 e.2 (by have := hvals e h1; omega)]
        exact hlk
      · rw [hjs]
        exact LayersRel_append hlr
    · simp at h1
      rw [h1]
      refine ⟨o, ho, rfl, folder, lo.map (relinkLayer q1 dm1), hl2d, ?_⟩
      rw [hlo]
      refine ⟨by simp, ?_⟩
      intro i h1i h2i
      rw [List.getElem_map]
      constructor
      · exact relinkLayer_name q1 dm1 lo[i]
      · exact hrel lo[i] (List.getElem_mem h1i)
  · intro d hd s hsrc
    by_cases hdd : d = q0.nextId
    · subst hdd
      rw [hlay2] at hsrc
      obtain ⟨l', hl', hcso⟩ := mem_compSources.mp hsrc
      obtain ⟨lorig, hlorig, hleq⟩ := List.mem_map.mp hl'
      obtain ⟨hcont, hcomp2⟩ := compSourceOf_elim hcso
      have hcr := hrel lorig hlorig
      cases hcor : lorig.content with
      | text v =>
        rw [hcor] at hcr
        simp only [ContentRel] at hcr
        rw [hleq] at hcr
        rw [hcr] at hcont
        cases hcont
      | other =>
        rw [hcor] at hcr
        simp only [ContentRel] at hcr
        rw [hleq] at hcr
        rw [hcr] at hcont
        cases hcont
      | source s0 =>
        rw [hcor] at hcr
        simp only [ContentRel] at hcr
        by_cases hc0 : isCompId q s0 = true
        · rw [if_pos hc0] at hcr
          obtain ⟨d', hd', hcd'⟩ := hcr
          rw [hleq] at hcd'
          rw [hcd'] at hcont
          cases hcont
          exact (hvals1 _ (lookup_mem hd')).1
        · rw [if_neg hc0] at hcr
          rw [hleq] at hcr
          rw [hcr] at hcont
          cases hcont
          have hs0lt : s < q.nextId := layerSrcBound_elim (hlob lorig hlorig) hcor
          have : isCompId q2 s = isCompId q s := by
            apply isCompId_eq_of_lookup_eq
            rw [hl2 s (by omega), hpres s hs0lt]
          rw [this] at hcomp2
          exact absurd hcomp2 hc0
    · have hlay : layersOf q2 d = layersOf q0 d :=
        layersOf_eq_of_lookup_eq (hl2 d hdd)
      rw [hlay] at hsrc
      obtain ⟨l', hl', hcso⟩ := mem_compSources.mp hsrc
      obtain ⟨hcont, hcomp2⟩ := compSourceOf_elim hcso
      by_cases hsd : s = q0.nextId
      · rw [hsd]
        omega
      · have : isCompId q2 s = isCompId q0 s := isCompId_eq_of_lookup_eq (hl2 s hsd)
        rw [this] at hcomp2
        exact hfresh d hd s (mem_compSources.mpr ⟨l', hl', compSourceOf_intro hcont hcomp2⟩)

lemma dupFold_spec (q : Project) (origs : List Nat) (suffix folder : String)
    (hwfb : ∀ e ∈ q.items, e.1 < q.nextId ∧ ∀ l ∈ itemLayers e.2, layerSrcBound q.nextId l = true) :
    ∀ (todo : List Nat) (q0 : Project) (dm0 : List (String × Nat)),
      todo ⊆ origs →
      (∀ x ∈ todo, isCompId q x = true) →
      (todo.map (compName q)).Nodup →
      (∀ x ∈ todo, compName q x ∉ dm0.map Prod.fst) →
      (∀ k (hk : k < todo.length), ∀ s ∈ compSources q (layersOf q todo[k]),
        compName q s ∈ dm0.map Prod.fst ++ (todo.take (k+1)).map (compName q)) →
      DInv q origs suffix q0 dm0 →
      DInv q origs suffix (todo.foldl (dupOne suffix folder) (q0, dm0)).1
          (todo.foldl (dupOne suffix folder) (q0, dm0)).2 ∧
      (todo.foldl (dupOne suffix folder) (q0, dm0)).2.map Prod.fst =
        dm0.map Prod.fst ++ todo.map (compName q) := by
  intro todo
  induction todo with
  | nil =>
    intro q0 dm0 _ _ _ _ _ hinv
    exact ⟨hinv, by simp⟩
  | cons t ts ih =>
    intro q0 dm0 hsub hcomps hnames hfreshn horder hinv
    rw [List.foldl_cons]
    have hstep := dupOne_spec q origs suffix folder hwfb q0 dm0 t
      (hsub (List.mem_cons_self _ _))
      (hcomps t (List.mem_cons_self _ _))
      (hfreshn t (List.mem_cons_self _ _))
      (by
        intro s hs
        have h0 := horder 0 (by simp) s (by simpa using hs)
        rcases List.mem_append.mp h0 with h1 | h1
        · exact Or.inl h1
        · right
          rw [List.take_succ_cons, List.take_zero] at h1
          simpa using h1)
      hinv
    obtain ⟨hinv1, hdm1⟩ := hstep
    obtain ⟨rest, hpair⟩ : ∃ r, dupOne suffix folder (q0, dm0) t = r := ⟨_, rfl⟩
    rw [hpair] at hinv1 hdm1 ⊢
    have hkeys1 : rest.2.map Prod.fst = dm0.map Prod.fst ++ [compName q t] := by
      rw [hdm1]
      simp
    have hnames' : (ts.map (compName q)).Nodup := by
      simp only [List.map_cons, List.nodup_cons] at hnames
      exact hnames.2
    have htnot : compName q t ∉ ts.map (compName q) := by
      simp only [List.map_cons, List.nodup_cons] at hnames
      exact hnames.1
    have hres := ih rest.1 rest.2
      (fun x hx => hsub (List.mem_cons_of_mem _ hx))
      (fun x hx => hcomps x (List.mem_cons_of_mem _ hx))
      hnames'
      (by
        intro x hx
        rw [hkeys1]
        intro hmem
        rcases List.mem_append.mp hmem with h1 | h1
        · exact hfreshn x (List.mem_cons_of_mem _ hx) h1
        · simp at h1
          apply htnot
          rw [← h1]
          exact List.mem_map.mpr ⟨x, hx, rfl⟩)
      (by
        intro k hk s hs
        have h0 := horder (k+1) (by simp; omega) s (by simpa using hs)
        rw [hkeys1]
        rcases List.mem_append.mp h0 with h1 | h1
        · exact List.mem_append.mpr (Or.inl (List.mem_append.mpr (Or.inl h1)))
        · rw [List.take_succ_cons, List.map_cons] at h1
          rcases List.mem_cons.mp h1 with h2 | h2
          · exact List.mem_append.mpr (Or.inl (List.mem_append.mpr (Or.inr (by simp [h2]))))
          · exact List.mem_append.mpr (Or.inr h2))
      hinv1
    refine ⟨hres.1, ?_⟩
    rw [hres.2, hkeys1]
    simp

-- Full duplication correctness (claim C1)

lemma take_mono_succ {α : Type} (l : List α) (k : Nat) : l.take k ⊆ l.take (k+1) := by
  have h := List.take_subset k (l.take (k+1))
  rw [List.take_take] at h
  have hmin : min k (k+1) = k := by omega
  rw [hmin] at h
  exact h

lemma duplicateFullTree_eq (p : Project) (masterId : Nat) (suffix lf pf : String) :
    duplicateFullTree p masterId suffix lf pf =
      dupOne suffix lf
        ((topoSort p (discoverAllSubComps p masterId)).foldl (dupOne suffix pf) (p, []))
        masterId := rfl

lemma duplicateFullTree_spec (p : Project) (masterId : Nat) (suffix lf pf : String)
    (rank : Nat → Nat)
    (hwf : WFproj p)
    (hm : isCompId p masterId = true)
    (hrank : ∀ a ∈ masterId :: discoverAllSubComps p masterId,
        ∀ b ∈ masterId :: discoverAllSubComps p masterId,
        b ∈ compSources p (layersOf p a) → rank b < rank a)
    (hnames : ((masterId :: discoverAllSubComps p masterId).map (compName p)).Nodup) :
    DInv p (masterId :: discoverAllSubComps p masterId) suffix
      (duplicateFullTree p masterId suffix lf pf).1
      (duplicateFullTree p masterId suffix lf pf).2 ∧
    (duplicateFullTree p masterId suffix lf pf).2.map Prod.fst =
      (topoSort p (discoverAllSubComps p masterId)).map (compName p) ++
        [compName p masterId] := by
  obtain ⟨hnd, hcomps, hroot, hclosed⟩ := discover_spec p masterId
  have hwfb : ∀ e ∈ p.items, e.1 < p.nextId ∧
      ∀ l ∈ itemLayers e.2, layerSrcBound p.nextId l = true := hwf.2
  have hrankall : ∀ a ∈ discoverAllSubComps p masterId, ∀ b ∈ discoverAllSubComps p masterId,
      b ∈ compSources p (layersOf p a) → rank b < rank a :=
    fun a ha b hb hs => hrank a (List.mem_cons_of_mem _ ha) b (List.mem_cons_of_mem _ hb) hs
  have hnames' : (compName p masterId ::
      (discoverAllSubComps p masterId).map (compName p)).Nodup := by
    simpa using hnames
  have hmname : compName p masterId ∉ (discoverAllSubComps p masterId).map (compName p) :=
    (List.nodup_cons.mp hnames').1
  have hcompl : ∀ x ∈ discoverAllSubComps p masterId,
      compName p x ∈ (topoSort p (discoverAllSubComps p masterId)).map (compName p) :=
    topoSort_names_complete hrankall
  have hinit : DInv p (masterId :: discoverAllSubComps p masterId) suffix p [] := by
    refine ⟨by simp, fun id _ => rfl, fun e he => (hwfb e he).1, fun e he => (hwfb e he).2,
      by simp, by simp, by simp, ?_⟩
    intro d hd s hsmem
    have hnone : lookupItem p d = none :=
      lookupItem_none_of_ge (fun e he => (hwfb e he).1) hd
    simp [layersOf, hnone, compSources] at hsmem
  have horder : ∀ k (hk : k < (topoSort p (discoverAllSubComps p masterId)).length),
      ∀ s ∈ compSources p (layersOf p (topoSort p (discoverAllSubComps p masterId))[k]),
      compName p s ∈ ([] : List (String × Nat)).map Prod.fst ++
        ((topoSort p (discoverAllSubComps p masterId)).take (k+1)).map (compName p) := by
    intro k hk s hs
    have hmem : (topoSort p (discoverAllSubComps p masterId))[k] ∈
        discoverAllSubComps p masterId :=
      topoSort_subset p _ (List.getElem_mem hk)
    have hsall : s ∈ discoverAllSubComps p masterId := hclosed _ hmem s hs
    have h := topoSort_order p (discoverAllSubComps p masterId) k hk s hsall hs
    rw [List.map_nil, List.nil_append]
    exact List.map_subset _ (take_mono_succ _ k) h
  have hfold := dupFold_spec p (masterId :: discoverAllSubComps p masterId) suffix pf hwfb
    (topoSort p (discoverAllSubComps p masterId)) p []
    (fun x hx => List.mem_cons_of_mem _ (topoSort_subset p _ hx))
    (fun x hx => hcomps x (topoSort_subset p _ hx))
    (topoSort_names_nodup p _)
    (fun x _ => by simp)
    horder hinit
  obtain ⟨hinvF, hkeysF⟩ := hfold
  rw [List.map_nil, List.nil_append] at hkeysF
  have hnotM : compName p masterId ∉
      ((topoSort p (discoverAllSubComps p masterId)).foldl
        (dupOne suffix pf) (p, [])).2.map Prod.fst := by
    rw [hkeysF]
    intro hmem
    exact hmname (List.map_subset _ (topoSort_subset p _) hmem)
  have hsrcnM : ∀ s ∈ compSources p (layersOf p masterId),
      compName p s ∈ ((topoSort p (discoverAllSubComps p masterId)).foldl
        (dupOne suffix pf) (p, [])).2.map Prod.fst ∨
      compName p s = compName p masterId := by
    intro s hs
    left
    rw [hkeysF]
    exact hcompl s (hroot s hs)
  have hmstep := dupOne_spec p (masterId :: discoverAllSubComps p masterId) suffix lf hwfb
    ((topoSort p (discoverAllSubComps p masterId)).foldl (dupOne suffix pf) (p, [])).1
    ((topoSort p (discoverAllSubComps p masterId)).foldl (dupOne suffix pf) (p, [])).2
    masterId (List.mem_cons_self _ _) hm hnotM hsrcnM hinvF
  rw [Prod.mk.eta] at hmstep
  rw [duplicateFullTree_eq]
  refine ⟨hmstep.1, ?_⟩
  rw [hmstep.2, List.map_append, hkeysF]
  simp

/-- C1: after `duplicateFullTree` completes for a master composition whose
discovered sub-composition graph is acyclic (witnessed by a rank function) and
whose composition names are pairwise distinct, every composition of the
duplicated subtree has a duplicate recorded in the produced duplicate map; the
duplicate is a fresh item whose layers are structurally isomorphic to the
original's (same length, same names) with every reference to a composition
rewritten through the duplicate map and every other layer content left
untouched, and no reference inside any duplicate points back at any original
composition of the subtree. -/
theorem C1_relink (p : Project) (masterId : Nat) (suffix lf pf : String) (rank : Nat → Nat)
    (hwf : WFproj p) (hm : isCompId p masterId = true)
    (hrank : ∀ a ∈ masterId :: discoverAllSubComps p masterId,
        ∀ b ∈ masterId :: discoverAllSubComps p masterId,
        b ∈ compSources p (layersOf p a) → rank b < rank a)
    (hnames : ((masterId :: discoverAllSubComps p masterId).map (compName p)).Nodup) :
    ∀ o ∈ masterId :: discoverAllSubComps p masterId,
      ∃ d, (duplicateFullTree p masterId suffix lf pf).2.lookup (compName p o) = some d ∧
        p.nextId ≤ d ∧
        LayersRel p (duplicateFullTree p masterId suffix lf pf).2
          (layersOf p o) (layersOf (duplicateFullTree p masterId suffix lf pf).1 d) ∧
        ∀ s ∈ compSources (duplicateFullTree p masterId suffix lf pf).1
            (layersOf (duplicateFullTree p masterId suffix lf pf).1 d),
          s ∉ masterId :: discoverAllSubComps p masterId := by
  obtain ⟨hinv, hkeys⟩ := duplicateFullTree_spec p masterId suffix lf pf rank hwf hm hrank hnames
  obtain ⟨hnd, hcomps, hroot, hclosed⟩ := discover_spec p masterId
  have hrankall : ∀ a ∈ discoverAllSubComps p masterId, ∀ b ∈ discoverAllSubComps p masterId,
      b ∈ compSources p (layersOf p a) → rank b < rank a :=
    fun a ha b hb hs => hrank a (List.mem_cons_of_mem _ ha) b (List.mem_cons_of_mem _ hb) hs
  obtain ⟨hnextE, hpresE, hboundE, hsrcbE, hkeysE, hvalsE, hdupesE, hfreshE⟩ := hinv
  have hcomplt : ∀ x ∈ masterId :: discoverAllSubComps p masterId, x < p.nextId := by
    intro x hx
    have hcx : isCompId p x = true := by
      rcases List.mem_cons.mp hx with rfl | hxall
      · exact hm
      · exact hcomps x hxall
    obtain ⟨f0, lo, hlx⟩ := isCompId_elim hcx
    exact (hwf.2 _ (lookup_mem hlx)).1
  intro o ho
  have honame : compName p o ∈ (duplicateFullTree p masterId suffix lf pf).2.map Prod.fst := by
    rw [hkeys]
    rcases List.mem_cons.mp ho with rfl | hoall
    · exact List.mem_append_right _ (by simp)
    · exact List.mem_append_left _ (topoSort_names_complete hrankall o hoall)
  obtain ⟨d, hd⟩ := Option.isSome_iff_exists.mp (lookup_isSome_of_mem_keys honame)
  have hdmmem := lookup_mem hd
  obtain ⟨o', ho'mem, hname_eq, fold, ld, hlook, hrel⟩ := hdupesE _ hdmmem
  have ho'o : o' = o := List.inj_on_of_nodup_map hnames ho'mem ho hname_eq
  subst ho'o
  have hlay : layersOf (duplicateFullTree p masterId suffix lf pf).1 d = ld := by
    simp [layersOf, hlook, itemLayers]
  refine ⟨d, hd, (hvalsE _ hdmmem).1, ?_, ?_⟩
  · rw [hlay]
    exact hrel
  · intro s hs hcon
    have hge : p.nextId ≤ s := hfreshE d (hvalsE _ hdmmem).1 s hs
    have hlt : s < p.nextId := hcomplt s hcon
    omega

theorem C1_witness :
    ∃ d, (duplicateFullTree exProj 0 "en_us" "Loc" "Pre").2.lookup (compName exProj 0) = some d ∧
      exProj.nextId ≤ d ∧
      LayersRel exProj (duplicateFullTree exProj 0 "en_us" "Loc" "Pre").2
        (layersOf exProj 0) (layersOf (duplicateFullTree exProj 0 "en_us" "Loc" "Pre").1 d) ∧
      ∀ s ∈ compSources (duplicateFullTree exProj 0 "en_us" "Loc" "Pre").1
          (layersOf (duplicateFullTree exProj 0 "en_us" "Loc" "Pre").1 d),
        s ∉ 0 :: discoverAllSubComps exProj 0 :=
  C1_relink exProj 0 "en_us" "Loc" "Pre" exRank (by decide) (by decide) (by decide) (by decide)
    0 (by decide)

-- Frame machinery for a whole run (claim C2)

lemma compSources_congr_pres {p q : Project}
    (hpres : ∀ id, id < p.nextId → lookupItem q id = lookupItem p id)
    {ls : List Layer} (hb : ∀ l ∈ ls, layerSrcBound p.nextId l = true) :
    compSources q ls = compSources p ls := by
  unfold compSources
  apply List.filterMap_congr
  intro l hl
  cases hc : l.content with
  | source s =>
    have hs : s < p.nextId := layerSrcBound_elim (hb l hl) hc
    simp only [compSourceOf, hc, isCompId_eq_of_lookup_eq (hpres s hs)]
  | text v => simp [compSourceOf, hc]
  | other => simp [compSourceOf, hc]

lemma dupOne_weak (q : Project) (suffix folder : String)
    (q0 : Project) (dm0 : List (String × Nat)) (o : Nat)
    (ho : o < q.nextId)
    (hlob : ∀ l ∈ layersOf q o, layerSrcBound q.nextId l = true)
    (hsrcn : ∀ s ∈ compSources q (layersOf q o),
        compName q s ∈ dm0.map Prod.fst ∨ compName q s = compName q o)
    (hnext : q.nextId ≤ q0.nextId)
    (hpres : ∀ id, id < q.nextId → lookupItem q0 id = lookupItem q id)
    (hbound : ∀ e ∈ q0.items, e.1 < q0.nextId)
    (hsrcb : ∀ e ∈ q0.items, ∀ l ∈ itemLayers e.2, layerSrcBound q0.nextId l = true)
    (hvals : ∀ e ∈ dm0, q.nextId ≤ e.2 ∧ e.2 < q0.nextId)
    (hfresh : ∀ d, q.nextId ≤ d → ∀ s ∈ compSources q0 (layersOf q0 d), q.nextId ≤ s) :
    q.nextId ≤ (dupOne suffix folder (q0, dm0) o).1.nextId ∧
    (∀ id, id < q.nextId →
      lookupItem (dupOne suffix folder (q0, dm0) o).1 id = lookupItem q id) ∧
    (∀ e ∈ (dupOne suffix folder (q0, dm0) o).1.items,
      e.1 < (dupOne suffix folder (q0, dm0) o).1.nextId) ∧
    (∀ e ∈ (dupOne suffix folder (q0, dm0) o).1.items, ∀ l ∈ itemLayers e.2,
      layerSrcBound (dupOne suffix folder (q0, dm0) o).1.nextId l = true) ∧
    (∀ e ∈ (dupOne suffix folder (q0, dm0) o).2,
      q.nextId ≤ e.2 ∧ e.2 < (dupOne suffix folder (q0, dm0) o).1.nextId) ∧
    (∀ d, q.nextId ≤ d →
      ∀ s ∈ compSources (dupOne suffix folder (q0, dm0) o).1
          (layersOf (dupOne suffix folder (q0, dm0) o).1 d), q.nextId ≤ s) ∧
    (∀ k', k' ∈ dm0.map Prod.fst ∨ k' = compName q o ∧ isCompId q o = true →
      k' ∈ (dupOne suffix folder (q0, dm0) o).2.map Prod.fst) := by
  cases hqo : lookupItem q o with
  | none =>
    have hq0o : lookupItem q0 o = none := by rw [hpres o ho]; exact hqo
    have hid : dupOne suffix folder (q0, dm0) o = (q0, dm0) := by
      simp only [dupOne, hq0o]
    rw [hid]
    refine ⟨hnext, hpres, hbound, hsrcb, hvals, hfresh, ?_⟩
    intro k' hk'
    rcases hk' with h1 | ⟨h1, h2⟩
    · exact h1
    · simp [isCompId, hqo] at h2
  | some it =>
    cases it with
    | footage pa =>
      have hq0o : lookupItem q0 o = some (Item.footage pa) := by rw [hpres o ho]; exact hqo
      have hid : dupOne suffix folder (q0, dm0) o = (q0, dm0) := by
        simp only [dupOne, hq0o]
      rw [hid]
      refine ⟨hnext, hpres, hbound, hsrcb, hvals, hfresh, ?_⟩
      intro k' hk'
      rcases hk' with h1 | ⟨h1, h2⟩
      · exact h1
      · simp [isCompId, hqo, isCompB] at h2
    | comp n f0 lo =>
      have hn : compName q o = n := by simp [compName, hqo]
      have hlo : layersOf q o = lo := by simp [layersOf, hqo, itemLayers]
      have hlob' : ∀ l ∈ lo, layerSrcBound q.nextId l = true := by rw [hlo] at hlob; exact hlob
      have hq0o : lookupItem q0 o = some (Item.comp n f0 lo) := by rw [hpres o ho]; exact hqo
      rw [dupOne_eq hq0o]
      set X : Item := Item.comp (n ++ "_" ++ suffix) folder lo with hX
      set q1 : Project := (addItem q0 X).1 with hq1
      set dm1 : List (String × Nat) := jsSet dm0 n q0.nextId with hdm1
      set q2 : Project := updateItem q1 q0.nextId (relinkItem q1 dm1) with hq2
      have hb1 : ∀ e ∈ q1.items, e.1 < q1.nextId := addItem_bound hbound
      have hq2n : q2.nextId = q0.nextId + 1 := rfl
      have hl1 : ∀ s, s ≠ q0.nextId → lookupItem q1 s = lookupItem q0 s :=
        fun s hs => lookupItem_addItem_ne hs
      have hl2 : ∀ s, s ≠ q0.nextId → lookupItem q2 s = lookupItem q0 s := by
        intro s hs
        rw [hq2, lookupItem_updateItem_ne hs, hl1 s hs]
      have hl1d : lookupItem q1 q0.nextId = some X := lookupItem_addItem_self hbound
      have hl2d : lookupItem q2 q0.nextId =
          some (Item.comp (n ++ "_" ++ suffix) folder (lo.map (relinkLayer q1 dm1))) := by
        rw [hq2, lookupItem_updateItem, if_pos rfl, hl1d]
        rfl
      have horig : ∀ s, s < q.nextId → lookupItem q1 s = lookupItem q s := by
        intro s hs
        rw [hl1 s (by omega), hpres s hs]
      have hrel : ∀ l ∈ lo, ContentRel q dm1 l.content (relinkLayer q1 dm1 l).content := by
        intro l hl
        apply relinkLayer_content_rel
        · intro s hcs
          exact horig s (layerSrcBound_elim (hlob' l hl) hcs)
        · intro s hcs hcomp
          have hmem : s ∈ compSources q (layersOf q o) := by
            rw [hlo]
            exact mem_compSources.mpr ⟨l, hl, compSourceOf_intro hcs hcomp⟩
          rcases hsrcn s hmem with h1 | h1
          · exact jsSet_lookup_isSome (Or.inr (lookup_isSome_of_mem_keys h1))
          · exact jsSet_lookup_isSome (Or.inl (h1.trans hn))
      have hvals1 : ∀ e ∈ dm1, q.nextId ≤ e.2 ∧ e.2 < q2.nextId := by
        intro e he
        rcases jsSet_entry_cases he with h1 | h1
        · rw [h1, hq2n]
          omega
        · have := hvals e h1
          rw [hq2n]
          omega
      have hlay2 : layersOf q2 q0.nextId = lo.map (relinkLayer q1 dm1) := by
        simp [layersOf, hl2d, itemLayers]
      have hlsb : ∀ lorig ∈ lo, layerSrcBound q2.nextId (relinkLayer q1 dm1 lorig) = true := by
        intro lorig hlorig
        have hcr := hrel lorig hlorig
        apply layerSrcBound_intro
        intro s hcs
        cases hcor : lorig.content with
        | text v =>
          rw [hcor] at hcr
          simp only [ContentRel] at hcr
          rw [hcr] at hcs
          cases hcs
        | other =>
          rw [hcor] at hcr
          simp only [ContentRel] at hcr
          rw [hcr] at hcs
          cases hcs
        | source s0 =>
          rw [hcor] at hcr
          simp only [ContentRel] at hcr
          by_cases hc0 : isCompId q s0 = true
          · rw [if_pos hc0] at hcr
            obtain ⟨d', hd', hcd'⟩ := hcr
            rw [hcd'] at hcs
            cases hcs
            exact (hvals1 _ (lookup_mem hd')).2
          · rw [if_neg hc0] at hcr
            rw [hcr] at hcs
            cases hcs
            have := layerSrcBound_elim (hlob' lorig hlorig) hcor
            rw [hq2n]
            omega
      refine ⟨by rw [hq2n]; omega, ?_, updateItem_bound hb1, ?_, hvals1, ?_, ?_⟩
      · intro id hid
        rw [hl2 id (by omega), hpres id hid]
      · intro e he
        rw [hq2, updateItem_items] at he
        rcases List.mem_map.mp he with ⟨e', he', heq⟩
        rw [hq1, addItem_items] at he'
        by_cases hck : e'.1 = q0.nextId
        · rw [if_pos hck] at heq
          have he'' : e' = (q0.nextId, X) := by
            rcases List.mem_append.mp he' with h1 | h1
            · have := hbound e' h1
              omega
            · simpa using h1
          rw [← heq, he'']
          intro l hl
          simp only [he'', hX, relinkItem, itemLayers] at hl ⊢
          rcases List.mem_map.mp hl with ⟨lorig, hlorig, hleq⟩
          rw [← hleq]
          exact hlsb lorig hlorig
        · rw [if_neg hck] at heq
          rw [← heq]
          rcases List.mem_append.mp he' with h1 | h1
          · intro l hl
            apply layerSrcBound_mono (n := q0.nextId) (by rw [hq2n]; omega)
            exact hsrcb e' h1 l hl
          · simp at h1
            rw [h1] at hck
            simp at hck
      · intro d hd s hsrc
        by_cases hdd : d = q0.nextId
        · subst hdd
          rw [hlay2] at hsrc
          obtain ⟨l', hl', hcso⟩ := mem_compSources.mp hsrc
          obtain ⟨lorig, hlorig, hleq⟩ := List.mem_map.mp hl'
          obtain ⟨hcont, hcomp2⟩ := compSourceOf_elim hcso
          have hcr := hrel lorig hlorig
          cases hcor : lorig.content with
          | text v =>
            rw [hcor] at hcr
            simp only [ContentRel] at hcr
            rw [hleq] at hcr
            rw [hcr] at hcont
            cases hcont
          | other =>
            rw [hcor] at hcr
            simp only [ContentRel] at hcr
            rw [hleq] at hcr
            rw [hcr] at hcont
            cases hcont
          | source s0 =>
            rw [hcor] at hcr
            simp only [ContentRel] at hcr
            by_cases hc0 : isCompId q s0 = true
            · rw [if_pos hc0] at hcr
              obtain ⟨d', hd', hcd'⟩ := hcr
              rw [hleq] at hcd'
              rw [hcd'] at hcont
              cases hcont
              exact (hvals1 _ (lookup_mem hd')).1
            · rw [if_neg hc0] at hcr
              rw [hleq] at hcr
              rw [hcr] at hcont
              cases hcont
              have hs0lt : s < q.nextId := layerSrcBound_elim (hlob' lorig hlorig) hcor
              have : isCompId q2 s = isCompId q s := by
                apply isCompId_eq_of_lookup_eq
                rw [hl2 s (by omega), hpres s hs0lt]
              rw [this] at hcomp2
              exact absurd hcomp2 hc0
        · have hlay : layersOf q2 d = layersOf q0 d :=
            layersOf_eq_of_lookup_eq (hl2 d hdd)
          rw [hlay] at hsrc
          obtain ⟨l', hl', hcso⟩ := mem_compSources.mp hsrc
          obtain ⟨hcont, hcomp2⟩ := compSourceOf_elim hcso
          by_cases hsd : s = q0.nextId
          · rw [hsd]
            omega
          · have : isCompId q2 s = isCompId q0 s := isCompId_eq_of_lookup_eq (hl2 s hsd)
            rw [this] at hcomp2
            exact hfresh d hd s (mem_compSources.mpr ⟨l', hl', compSourceOf_intro hcont hcomp2⟩)
      · intro k' hk'
        have hks : ((dm1.lookup k')).isSome = true := by
          rcases hk' with h1 | ⟨h1, _⟩
          · exact jsSet_lookup_isSome (Or.inr (lookup_isSome_of_mem_keys h1))
          · exact jsSet_lookup_isSome (Or.inl (h1.trans hn))
        rcases Option.isSome_iff_exists.mp hks with ⟨v, hv⟩
        exact mem_keys_of_lookup hv

lemma dupFold_weak (q : Project) (suffix folder : String) :
    ∀ (todo : List Nat) (q0 : Project) (dm0 : List (String × Nat)),
      (∀ x ∈ todo, isCompId q x = true ∧ x < q.nextId ∧
        ∀ l ∈ layersOf q x, layerSrcBound q.nextId l = true) →
      (∀ k (hk : k < todo.length), ∀ s ∈ compSources q (layersOf q todo[k]),
        compName q s ∈ dm0.map Prod.fst ++ (todo.take (k+1)).map (compName q)) →
      q.nextId ≤ q0.nextId →
      (∀ id, id < q.nextId → lookupItem q0 id = lookupItem q id) →
      (∀ e ∈ q0.items, e.1 < q0.nextId) →
      (∀ e ∈ q0.items, ∀ l ∈ itemLayers e.2, layerSrcBound q0.nextId l = true) →
      (∀ e ∈ dm0, q.nextId ≤ e.2 ∧ e.2 < q0.nextId) →
      (∀ d, q.nextId ≤ d → ∀ s ∈ compSources q0 (layersOf q0 d), q.nextId ≤ s) →
      q.nextId ≤ (todo.foldl (dupOne suffix folder) (q0, dm0)).1.nextId ∧
      (∀ id, id < q.nextId →
        lookupItem (todo.foldl (dupOne suffix folder) (q0, dm0)).1 id = lookupItem q id) ∧
      (∀ e ∈ (todo.foldl (dupOne suffix folder) (q0, dm0)).1.items,
        e.1 < (todo.foldl (dupOne suffix folder) (q0, dm0)).1.nextId) ∧
      (∀ e ∈ (todo.foldl (dupOne suffix folder) (q0, dm0)).1.items, ∀ l ∈ itemLayers e.2,
        layerSrcBound (todo.foldl (dupOne suffix folder) (q0, dm0)).1.nextId l = true) ∧
      (∀ e ∈ (todo.foldl (dupOne suffix folder) (q0, dm0)).2,
        q.nextId ≤ e.2 ∧ e.2 < (todo.foldl (dupOne suffix folder) (q0, dm0)).1.nextId) ∧
      (∀ d, q.nextId ≤ d →
        ∀ s ∈ compSources (todo.foldl (dupOne suffix folder) (q0, dm0)).1
            (layersOf (todo.foldl (dupOne suffix folder) (q0, dm0)).1 d), q.nextId ≤ s) ∧
      (∀ k', k' ∈ dm0.map Prod.fst ++ todo.map (compName q) →
        k' ∈ (todo.foldl (dupOne suffix folder) (q0, dm0)).2.map Prod.fst) := by
  intro todo
  induction todo with
  | nil =>
    intro q0 dm0 _ _ hnext hpres hbound hsrcb hvals hfresh
    refine ⟨hnext, hpres, hbound, hsrcb, hvals, hfresh, ?_⟩
    intro k' hk'
    simpa using hk'
  | cons t ts ih =>
    intro q0 dm0 helem horder hnext hpres hbound hsrcb hvals hfresh
    obtain ⟨htc, htlt, htb⟩ := helem t (List.mem_cons_self _ _)
    have hstep := dupOne_weak q suffix folder q0 dm0 t htlt htb
      (by
        intro s hs
        have h0 := horder 0 (by simp) s (by simpa using hs)
        rcases List.mem_append.mp h0 with h1 | h1
        · exact Or.inl h1
        · right
          rw [List.take_succ_cons, List.take_zero] at h1
          simpa using h1)
      hnext hpres hbound hsrcb hvals hfresh
    obtain ⟨hnext1, hpres1, hbound1, hsrcb1, hvals1, hfresh1, hkeys1⟩ := hstep
    obtain ⟨r, hpair⟩ : ∃ r, dupOne suffix folder (q0, dm0) t = r := ⟨_, rfl⟩
    rw [hpair] at hnext1 hpres1 hbound1 hsrcb1 hvals1 hfresh1 hkeys1
    rw [List.foldl_cons, hpair]
    have hr : r = (r.1, r.2) := rfl
    have horder' : ∀ k (hk : k < ts.length), ∀ s ∈ compSources q (layersOf q ts[k]),
        compName q s ∈ r.2.map Prod.fst ++ (ts.take (k+1)).map (compName q) := by
      intro k hk s hs
      have h0 := horder (k+1) (by simpa using hk) s (by simpa using hs)
      rw [List.take_succ_cons, List.map_cons] at h0
      rcases List.mem_append.mp h0 with h1 | h1
      · exact List.mem_append_left _ (hkeys1 _ (Or.inl h1))
      · rcases List.mem_cons.mp h1 with h2 | h2
        · exact List.mem_append_left _ (hkeys1 _ (Or.inr ⟨h2, htc⟩))
        · exact List.mem_append_right _ h2
    have hrest := ih r.1 r.2
      (fun x hx => helem x (List.mem_cons_of_mem _ hx))
      horder' hnext1 hpres1 hbound1 hsrcb1 hvals1 hfresh1
    rw [← hr] at hrest
    obtain ⟨h1, h2, h3, h4, h5, h6, h7⟩ := hrest
    refine ⟨h1, h2, h3, h4, h5, h6, ?_⟩
    intro k' hk'
    apply h7
    rw [List.map_cons] at hk'
    rcases List.mem_append.mp hk' with ha | ha
    · exact List.mem_append_left _ (hkeys1 _ (Or.inl ha))
    · rcases List.mem_cons.mp ha with hb | hb
      · exact List.mem_append_left _ (hkeys1 _ (Or.inr ⟨hb, htc⟩))
      · exact List.mem_append_right _ hb

lemma duplicateFullTree_weak (q : Project) (masterId : Nat) (suffix lf pf : String)
    (rank : Nat → Nat)
    (hwfb : ∀ e ∈ q.items, e.1 < q.nextId ∧ ∀ l ∈ itemLayers e.2, layerSrcBound q.nextId l = true)
    (hmo : masterId < q.nextId)
    (hrank : ∀ a ∈ discoverAllSubComps q masterId, ∀ b ∈ discoverAllSubComps q masterId,
        b ∈ compSources q (layersOf q a) → rank b < rank a) :
    q.nextId ≤ (duplicateFullTree q masterId suffix lf pf).1.nextId ∧
    (∀ id, id < q.nextId →
      lookupItem (duplicateFullTree q masterId suffix lf pf).1 id = lookupItem q id) ∧
    (∀ e ∈ (duplicateFullTree q masterId suffix lf pf).1.items,
      e.1 < (duplicateFullTree q masterId suffix lf pf).1.nextId ∧
      ∀ l ∈ itemLayers e.2,
        layerSrcBound (duplicateFullTree q masterId suffix lf pf).1.nextId l = true) ∧
    (∀ e ∈ (duplicateFullTree q masterId suffix lf pf).2, q.nextId ≤ e.2) ∧
    (∀ d, q.nextId ≤ d →
      ∀ s ∈ compSources (duplicateFullTree q masterId suffix lf pf).1
          (layersOf (duplicateFullTree q masterId suffix lf pf).1 d), q.nextId ≤ s) := by
  obtain ⟨hnd, hcomps, hroot, hclosed⟩ := discover_spec q masterId
  have hlayb : ∀ x, ∀ l ∈ layersOf q x, layerSrcBound q.nextId l = true := by
    intro x l hl
    cases hlx : lookupItem q x with
    | none => simp [layersOf, hlx] at hl
    | some it =>
      have h2 := (hwfb _ (lookup_mem hlx)).2
      have hly : layersOf q x = itemLayers it := by simp [layersOf, hlx]
      rw [hly] at hl
      exact h2 l hl
  have hcomplt : ∀ x, isCompId q x = true → x < q.nextId := by
    intro x hx
    obtain ⟨f0, lo, hlx⟩ := isCompId_elim hx
    exact (hwfb _ (lookup_mem hlx)).1
  have hcompl : ∀ x ∈ discoverAllSubComps q masterId,
      compName q x ∈ (topoSort q (discoverAllSubComps q masterId)).map (compName q) :=
    topoSort_names_complete hrank
  have horder : ∀ k (hk : k < (topoSort q (discoverAllSubComps q masterId)).length),
      ∀ s ∈ compSources q (layersOf q (topoSort q (discoverAllSubComps q masterId))[k]),
      compName q s ∈ ([] : List (String × Nat)).map Prod.fst ++
        ((topoSort q (discoverAllSubComps q masterId)).take (k+1)).map (compName q) := by
    intro k hk s hs
    have hmem : (topoSort q (discoverAllSubComps q masterId))[k] ∈
        discoverAllSubComps q masterId :=
      topoSort_subset q _ (List.getElem_mem hk)
    have hsall : s ∈ discoverAllSubComps q masterId := hclosed _ hmem s hs
    have h := topoSort_order q (discoverAllSubComps q masterId) k hk s hsall hs
    rw [List.map_nil, List.nil_append]
    exact List.map_subset _ (take_mono_succ _ k) h
  have hfold := dupFold_weak q suffix pf (topoSort q (discoverAllSubComps q masterId)) q []
    (fun x hx => ⟨hcomps x (topoSort_subset q _ hx),
      hcomplt x (hcomps x (topoSort_subset q _ hx)), hlayb x⟩)
    horder (le_refl _) (fun id _ => rfl) (fun e he => (hwfb e he).1) (fun e he => (hwfb e he).2)
    (by simp)
    (by
      intro d hd s hsmem
      have hnone : lookupItem q d = none :=
        lookupItem_none_of_ge (fun e he => (hwfb e he).1) hd
      simp [layersOf, hnone, compSources] at hsmem)
  obtain ⟨hnextF, hpresF, hboundF, hsrcbF, hvalsF, hfreshF, hkeysF⟩ := hfold
  have hmstep := dupOne_weak q suffix lf
    ((topoSort q (discoverAllSubComps q masterId)).foldl (dupOne suffix pf) (q, [])).1
    ((topoSort q (discoverAllSubComps q masterId)).foldl (dupOne suffix pf) (q, [])).2
    masterId hmo (hlayb masterId)
    (by
      intro s hs
      left
      apply hkeysF
      simp only [List.map_nil, List.nil_append]
      exact hcompl s (hroot s hs))
    hnextF hpresF hboundF hsrcbF hvalsF hfreshF
  rw [Prod.mk.eta] at hmstep
  obtain ⟨hnextM, hpresM, hboundM, hsrcbM, hvalsM, hfreshM, _⟩ := hmstep
  rw [duplicateFullTree_eq]
  exact ⟨hnextM, hpresM, fun e he => ⟨hboundM e he, hsrcbM e he⟩,
    fun e he => (hvalsM e he).1, hfreshM⟩

lemma layersOf_srcBound {q : Project}
    (hwfb : ∀ e ∈ q.items, e.1 < q.nextId ∧ ∀ l ∈ itemLayers e.2, layerSrcBound q.nextId l = true) :
    ∀ x, ∀ l ∈ layersOf q x, layerSrcBound q.nextId l = true := by
  intro x l hl
  cases hlx : lookupItem q x with
  | none => simp [layersOf, hlx] at hl
  | some it =>
    have h2 := (hwfb _ (lookup_mem hlx)).2
    have hly : layersOf q x = itemLayers it := by simp [layersOf, hlx]
    rw [hly] at hl
    exact h2 l hl

lemma duplicateFullTree_GInv {p : Project} (q : Project) (masterId : Nat)
    (suffix lf pf : String) (rank : Nat → Nat)
    (hwfp : WFproj p) (hrk : RankOk p rank)
    (hg : GInv p q) (hmo : masterId < p.nextId) :
    GInv p (duplicateFullTree q masterId suffix lf pf).1 ∧
    (∀ e ∈ (duplicateFullTree q masterId suffix lf pf).2, p.nextId ≤ e.2) := by
  obtain ⟨hn, hpres, hb, hfc⟩ := hg
  have hplayb : ∀ x, ∀ l ∈ layersOf p x, layerSrcBound p.nextId l = true :=
    layersOf_srcBound hwfp.2
  have hgood : ∀ x ∈ discoverAllSubComps q masterId, x < p.nextId := by
    apply discover_pred q masterId (fun x => x < p.nextId)
    · intro x hx s hs
      have hlq : layersOf q x = layersOf p x := layersOf_eq_of_lookup_eq (hpres x hx)
      rw [hlq, compSources_congr_pres hpres (hplayb x)] at hs
      obtain ⟨l, hl, hcso⟩ := mem_compSources.mp hs
      obtain ⟨hcont, _⟩ := compSourceOf_elim hcso
      exact layerSrcBound_elim (hplayb x l hl) hcont
    · intro s hs
      have hlq : layersOf q masterId = layersOf p masterId :=
        layersOf_eq_of_lookup_eq (hpres masterId hmo)
      rw [hlq, compSources_congr_pres hpres (hplayb masterId)] at hs
      obtain ⟨l, hl, hcso⟩ := mem_compSources.mp hs
      obtain ⟨hcont, _⟩ := compSourceOf_elim hcso
      exact layerSrcBound_elim (hplayb masterId l hl) hcont
  have hrankq : ∀ a ∈ discoverAllSubComps q masterId, ∀ b ∈ discoverAllSubComps q masterId,
      b ∈ compSources q (layersOf q a) → rank b < rank a := by
    intro a ha b hb hs
    have hla : layersOf q a = layersOf p a := layersOf_eq_of_lookup_eq (hpres a (hgood a ha))
    rw [hla, compSources_congr_pres hpres (hplayb a)] at hs
    cases hlp : lookupItem p a with
    | none => simp [layersOf, hlp, compSources] at hs
    | some it =>
      have hak : a ∈ itemKeys p := List.mem_map.mpr ⟨(a, it), lookup_mem hlp, rfl⟩
      exact hrk a hak b hs
  have hw := duplicateFullTree_weak q masterId suffix lf pf rank hb (by omega) hrankq
  obtain ⟨h1, h2, h3, h4, h5⟩ := hw
  have hqlayb : ∀ x, ∀ l ∈ layersOf q x, layerSrcBound q.nextId l = true :=
    layersOf_srcBound hb
  refine ⟨⟨by omega, ?_, h3, ?_⟩, fun e he => le_trans hn (h4 e he)⟩
  · intro id hid
    rw [h2 id (by omega), hpres id hid]
  · intro d hd s hs
    by_cases hdq : q.nextId ≤ d
    · exact le_trans hn (h5 d hdq s hs)
    · push_neg at hdq
      have hlay : layersOf (duplicateFullTree q masterId suffix lf pf).1 d = layersOf q d :=
        layersOf_eq_of_lookup_eq (h2 d hdq)
      rw [hlay, compSources_congr_pres h2 (hqlayb d)] at hs
      exact hfc d hd s hs

lemma findLayerDeep_fresh (q : Project) (n0 : Nat) (hfc : FreshClosed q n0) (lname : String) :
    ∀ (fuel c : Nat), n0 ≤ c → ∀ ci, findLayerDeep q fuel c lname = some ci → n0 ≤ ci.1 := by
  intro fuel
  induction fuel with
  | zero =>
    intro c hc ci h
    simp [findLayerDeep] at h
  | succ f ih =>
    intro c hc ci h
    rw [findLayerDeep] at h
    unfold findDeepStep at h
    cases hidx : (layersOf q c).findIdx? (fun l => l.name == lname) with
    | some i =>
      rw [hidx] at h
      simp at h
      rw [← h]
      exact hc
    | none =>
      rw [hidx] at h
      obtain ⟨l, hl, hsome⟩ := List.exists_of_findSome?_eq_some h
      cases hcso : compSourceOf q l with
      | none => rw [hcso] at hsome; cases hsome
      | some s =>
        rw [hcso] at hsome
        have hsmem : s ∈ compSources q (layersOf q c) :=
          mem_compSources.mpr ⟨l, hl, hcso⟩
        exact ih s (hfc c hc s hsmem) ci hsome

lemma modifyNth_mem {α : Type} (f : α → α) :
    ∀ (i : Nat) (l : List α) (x : α), x ∈ modifyNth f i l → x ∈ l ∨ ∃ y ∈ l, x = f y := by
  intro i
  induction i with
  | zero =>
    intro l x h
    cases l with
    | nil => simp [modifyNth] at h
    | cons a as =>
      simp only [modifyNth] at h
      rcases List.mem_cons.mp h with h1 | h1
      · exact Or.inr ⟨a, List.mem_cons_self _ _, h1⟩
      · exact Or.inl (List.mem_cons_of_mem _ h1)
  | succ n ih =>
    intro l x h
    cases l with
    | nil => simp [modifyNth] at h
    | cons a as =>
      simp only [modifyNth] at h
      rcases List.mem_cons.mp h with h1 | h1
      · exact Or.inl (h1 ▸ List.mem_cons_self _ _)
      · rcases ih as x h1 with h2 | ⟨y, hy, hxy⟩
        · exact Or.inl (List.mem_cons_of_mem _ h2)
        · exact Or.inr ⟨y, List.mem_cons_of_mem _ hy, hxy⟩

lemma setLayerContent_nextId (q : Project) (c i : Nat) (nc : LayerContent) :
    (setLayerContent q c i nc).nextId = q.nextId := rfl

lemma setLayerContent_lookup_ne {q : Project} {c i : Nat} {nc : LayerContent} {id : Nat}
    (h : id ≠ c) : lookupItem (setLayerContent q c i nc) id = lookupItem q id :=
  lookupItem_updateItem_ne h

lemma setLayerContent_isCompId (q : Project) (c i : Nat) (nc : LayerContent) (s : Nat) :
    isCompId (setLayerContent q c i nc) s = isCompId q s := by
  by_cases hs : s = c
  · subst hs
    unfold setLayerContent isCompId
    rw [lookupItem_updateItem, if_pos rfl]
    cases hlc : lookupItem q s with
    | none => simp
    | some it =>
      cases it with
      | comp n f ls => simp [isCompB]
      | footage pa => simp [isCompB]
  · unfold isCompId
    rw [setLayerContent_lookup_ne hs]

lemma setLayerContent_GInv {p q : Project} {c i : Nat} {nc : LayerContent}
    (hg : GInv p q) (hc : p.nextId ≤ c)
    (hnc : ∀ s, nc = LayerContent.source s → p.nextId ≤ s ∧ s < q.nextId) :
    GInv p (setLayerContent q c i nc) := by
  obtain ⟨hn, hpres, hb, hfc⟩ := hg
  have hncb : layerSrcBound q.nextId { name := "", content := nc } = true ∨
      ∀ l : Layer, layerSrcBound q.nextId { l with content := nc } = true := by
    right
    intro l
    apply layerSrcBound_intro
    intro s hsc
    exact (hnc s hsc).2
  have hcompid : ∀ s, isCompId (setLayerContent q c i nc) s = isCompId q s :=
    setLayerContent_isCompId q c i nc
  have hcsrc : ∀ ls, compSources (setLayerContent q c i nc) ls = compSources q ls := by
    intro ls
    apply compSources_congr
    intro l _
    apply compSourceOf_eq_of_src_eq
    intro s _
    exact hcompid s
  refine ⟨by rw [setLayerContent_nextId]; omega, ?_, ?_, ?_⟩
  · intro id hid
    rw [setLayerContent_lookup_ne (by omega), hpres id hid]
  · intro e he
    unfold setLayerContent updateItem at he
    rcases List.mem_map.mp he with ⟨e', he', heq⟩
    by_cases hck : e'.1 = c
    · rw [if_pos hck] at heq
      obtain ⟨hb1, hb2⟩ := hb e' he'
      rw [← heq]
      refine ⟨by rw [setLayerContent_nextId]; exact hb1, ?_⟩
      intro l hl
      rw [setLayerContent_nextId]
      cases hit : e'.2 with
      | footage pa =>
        rw [hit] at hl
        simp only [itemLayers] at hl ⊢
        exact hb2 l (by rw [hit]; exact hl)
      | comp n2 f2 ls2 =>
        rw [hit] at hl
        simp only [itemLayers] at hl
        rcases modifyNth_mem _ _ _ _ hl with h1 | ⟨y, hy, hxy⟩
        · exact hb2 l (by rw [hit]; simpa [itemLayers] using h1)
        · rw [hxy]
          apply layerSrcBound_intro
          intro s hsc
          exact (hnc s hsc).2
    · rw [if_neg hck] at heq
      rw [← heq]
      obtain ⟨hb1, hb2⟩ := hb e' he'
      exact ⟨by rw [setLayerContent_nextId]; exact hb1,
        fun l hl => by rw [setLayerContent_nextId]; exact hb2 l hl⟩
  · intro d hd s hs
    rw [hcsrc] at hs
    by_cases hdc : d = c
    · subst hdc
      cases hlc : lookupItem q d with
      | none =>
        have : lookupItem (setLayerContent q d i nc) d = none := by
          unfold setLayerContent
          rw [lookupItem_updateItem, if_pos rfl, hlc]
          rfl
        rw [layersOf, this] at hs
        simp [compSources] at hs
      | some it =>
        cases it with
        | footage pa =>
          have : lookupItem (setLayerContent q d i nc) d = some (Item.footage pa) := by
            unfold setLayerContent
            rw [lookupItem_updateItem, if_pos rfl, hlc]
            rfl
          have hly : layersOf (setLayerContent q d i nc) d = [] := by
            simp [layersOf, this, itemLayers]
          rw [hly] at hs
          simp [compSources] at hs
        | comp n2 f2 ls2 =>
          have hlk : lookupItem (setLayerContent q d i nc) d =
              some (Item.comp n2 f2 (modifyNth (fun l => { l with content := nc }) i ls2)) := by
            unfold setLayerContent
            rw [lookupItem_updateItem, if_pos rfl, hlc]
            rfl
          have hly : layersOf (setLayerContent q d i nc) d =
              modifyNth (fun l => { l with content := nc }) i ls2 := by
            simp [layersOf, hlk, itemLayers]
          rw [hly] at hs
          obtain ⟨l, hl, hcso⟩ := mem_compSources.mp hs
          obtain ⟨hcont, _⟩ := compSourceOf_elim hcso
          rcases modifyNth_mem _ _ _ _ hl with h1 | ⟨y, hy, hxy⟩
          · have hls : layersOf q d = ls2 := by simp [layersOf, hlc, itemLayers]
            apply hfc d hd s
            rw [hls]
            exact mem_compSources.mpr ⟨l, h1, hcso⟩
          · rw [hxy] at hcont
            simp only at hcont
            exact (hnc s hcont).1
    · have hlay : layersOf (setLayerContent q c i nc) d = layersOf q d :=
        layersOf_eq_of_lookup_eq (setLayerContent_lookup_ne hdc)
      rw [hlay] at hs
      exact hfc d hd s hs


lemma replaceText_GInv {p q : Project} {c i : Nat} {v : String}
    (hg : GInv p q) (hc : p.nextId ≤ c) :
    GInv p (replaceText q c i v).1 := by
  cases hgl : (layersOf q c)[i]? with
  | none =>
    have hr : (replaceText q c i v).1 = q := by simp [replaceText, hgl]
    rw [hr]
    exact hg
  | some l =>
    cases hcl : l.content with
    | text w =>
      have hr : (replaceText q c i v).1 = setLayerContent q c i (LayerContent.text v) := by
        simp [replaceText, hgl, hcl]
      rw [hr]
      exact setLayerContent_GInv hg hc (fun s hsc => by cases hsc)
    | source s0 =>
      have hr : (replaceText q c i v).1 = q := by simp [replaceText, hgl, hcl]
      rw [hr]
      exact hg
    | other =>
      have hr : (replaceText q c i v).1 = q := by simp [replaceText, hgl, hcl]
      rw [hr]
      exact hg

lemma addFootage_isCompId {p q : Project} (hg : GInv p q) (path : String) (s : Nat) :
    isCompId (addItem q (Item.footage path)).1 s = isCompId q s := by
  by_cases hs : s = q.nextId
  · have h1 : lookupItem (addItem q (Item.footage path)).1 s = some (Item.footage path) := by
      rw [hs]
      exact lookupItem_addItem_self (fun e he => (hg.2.2.1 e he).1)
    have h2 : lookupItem q s = none := by
      rw [hs]
      exact lookupItem_none_of_ge (fun e he => (hg.2.2.1 e he).1) (le_refl _)
    simp [isCompId, h1, h2, isCompB]
  · exact isCompId_eq_of_lookup_eq (lookupItem_addItem_ne hs)

lemma addFootage_GInv {p q : Project} (hg : GInv p q) (path : String) :
    GInv p (addItem q (Item.footage path)).1 := by
  obtain ⟨hn, hpres, hb, hfc⟩ := hg
  have hbq : ∀ e ∈ q.items, e.1 < q.nextId := fun e he => (hb e he).1
  refine ⟨by rw [addItem_fst_nextId]; omega, ?_, ?_, ?_⟩
  · intro id hid
    rw [lookupItem_addItem_ne (by omega), hpres id hid]
  · intro e he
    rw [addItem_items] at he
    rw [addItem_fst_nextId]
    rcases List.mem_append.mp he with h1 | h1
    · obtain ⟨hb1, hb2⟩ := hb e h1
      exact ⟨by omega, fun l hl => layerSrcBound_mono (by omega) (hb2 l hl)⟩
    · simp at h1
      rw [h1]
      exact ⟨by omega, fun l hl => by simp [itemLayers] at hl⟩
  · intro d hd s hs
    by_cases hdq : d = q.nextId
    · have h1 : lookupItem (addItem q (Item.footage path)).1 d = some (Item.footage path) := by
        rw [hdq]
        exact lookupItem_addItem_self hbq
      have hly : layersOf (addItem q (Item.footage path)).1 d = [] := by
        simp [layersOf, h1, itemLayers]
      rw [hly] at hs
      simp [compSources] at hs
    · have hlay : layersOf (addItem q (Item.footage path)).1 d = layersOf q d :=
        layersOf_eq_of_lookup_eq (lookupItem_addItem_ne hdq)
      have hcs : compSources (addItem q (Item.footage path)).1 (layersOf q d) =
          compSources q (layersOf q d) := by
        apply compSources_congr
        intro l _
        apply compSourceOf_eq_of_src_eq
        intro s' _
        exact addFootage_isCompId ⟨hn, hpres, hb, hfc⟩ path s'
      rw [hlay, hcs] at hs
      exact hfc d hd s hs

lemma replaceFootage_GInv {p q : Project} {fs : List String} {c i : Nat} {path : String}
    (hg : GInv p q) (hc : p.nextId ≤ c) :
    GInv p (replaceFootage q fs c i path).1 := by
  by_cases hfs : fs.contains path
  · have hfs' : path ∈ fs := by simpa using hfs
    have hg1 : GInv p (addItem q (Item.footage path)).1 := addFootage_GInv hg path
    cases hgl : (layersOf (addItem q (Item.footage path)).1 c)[i]? with
    | none =>
      have hr : (replaceFootage q fs c i path).1 = (addItem q (Item.footage path)).1 := by
        simp [replaceFootage, hfs, hfs', hgl]
      rw [hr]
      exact hg1
    | some l =>
      cases hcl : l.content with
      | source s0 =>
        have hr : (replaceFootage q fs c i path).1 =
            setLayerContent (addItem q (Item.footage path)).1 c i
              (LayerContent.source (addItem q (Item.footage path)).2) := by
          simp [replaceFootage, hfs, hfs', hgl, hcl]
        rw [hr]
        apply setLayerContent_GInv hg1 hc
        intro s hsc
        cases hsc
        rw [addItem_snd, addItem_fst_nextId]
        exact ⟨le_trans hg.1 (le_refl _), by omega⟩
      | text w =>
        have hr : (replaceFootage q fs c i path).1 = (addItem q (Item.footage path)).1 := by
          simp [replaceFootage, hfs, hfs', hgl, hcl]
        rw [hr]
        exact hg1
      | other =>
        have hr : (replaceFootage q fs c i path).1 = (addItem q (Item.footage path)).1 := by
          simp [replaceFootage, hfs, hfs', hgl, hcl]
        rw [hr]
        exact hg1
  · have hr : (replaceFootage q fs c i path).1 = q := by
      simp only [replaceFootage]
      rw [if_neg hfs]
    rw [hr]
    exact hg

lemma dispatchReplace_GInv {p q : Project} {fs : List String} {ty : String} {c i : Nat}
    {value : String} (hg : GInv p q) (hc : p.nextId ≤ c) :
    GInv p (dispatchReplace q fs ty c i value).1 := by
  unfold dispatchReplace
  by_cases hty : (ty = "footage" || ty = "image") = true
  · rw [if_pos hty]
    exact replaceFootage_GInv hg hc
  · rw [if_neg hty]
    exact replaceText_GInv hg hc

lemma applyRow_GInv {p : Project} {fs : List String} {dm : List (String × Nat)}
    {lang : String} {st : RunState} {row : Row}
    (hg : GInv p st.proj) (hdv : ∀ e ∈ dm, p.nextId ≤ e.2) :
    GInv p (applyRow fs dm lang st row).proj := by
  by_cases hv : rowField row lang = ""
  · have hr : (applyRow fs dm lang st row).proj = st.proj := by
      simp [applyRow, hv]
    rw [hr]
    exact hg
  · cases hlk : dm.lookup (rowField row "comp_name") with
    | none =>
      have hr : (applyRow fs dm lang st row).proj = st.proj := by
        simp [applyRow, hv, hlk, recordFail]
      rw [hr]
      exact hg
    | some dupeMaster =>
      cases hfl : findLayerDeep st.proj (st.proj.items.length + 1) dupeMaster
          (rowField row "layer_name") with
      | none =>
        have hr : (applyRow fs dm lang st row).proj = st.proj := by
          simp [applyRow, hv, hlk, hfl, recordFail]
        rw [hr]
        exact hg
      | some ci =>
        have hdm : p.nextId ≤ dupeMaster := hdv _ (lookup_mem hlk)
        have hci : p.nextId ≤ ci.1 :=
          findLayerDeep_fresh st.proj p.nextId hg.2.2.2 (rowField row "layer_name")
            (st.proj.items.length + 1) dupeMaster hdm ci hfl
        have hgd : GInv p (dispatchReplace st.proj fs
            (jsToLower (effType (rowField row "type"))) ci.1 ci.2 (rowField row lang)).1 :=
          dispatchReplace_GInv hg hci
        by_cases hr2 : (dispatchReplace st.proj fs
            (jsToLower (effType (rowField row "type"))) ci.1 ci.2 (rowField row lang)).2 = true
        · have hr : (applyRow fs dm lang st row).proj = (dispatchReplace st.proj fs
              (jsToLower (effType (rowField row "type"))) ci.1 ci.2 (rowField row lang)).1 := by
            simp [applyRow, hv, hlk, hfl, hr2]
          rw [hr]
          exact hgd
        · have hr : (applyRow fs dm lang st row).proj = (dispatchReplace st.proj fs
              (jsToLower (effType (rowField row "type"))) ci.1 ci.2 (rowField row lang)).1 := by
            simp [applyRow, hv, hlk, hfl, hr2, recordFail]
          rw [hr]
          exact hgd

lemma applyRows_GInv {p : Project} {fs : List String} {dm : List (String × Nat)}
    {lang : String} (hdv : ∀ e ∈ dm, p.nextId ≤ e.2) :
    ∀ (rows : List Row) (st : RunState), GInv p st.proj →
      GInv p ((rows.foldl (applyRow fs dm lang) st).proj) := by
  intro rows
  induction rows with
  | nil => intro st hg; exact hg
  | cons r rs ih =>
    intro st hg
    rw [List.foldl_cons]
    exact ih _ (applyRow_GInv hg hdv)

lemma jsSetFold_vals {n0 : Nat} :
    ∀ (ents : List (String × Nat)) (acc : List (String × Nat)),
      (∀ e ∈ acc, n0 ≤ e.2) → (∀ e ∈ ents, n0 ≤ e.2) →
      ∀ e ∈ ents.foldl (fun a e => jsSet a e.1 e.2) acc, n0 ≤ e.2 := by
  intro ents
  induction ents with
  | nil => intro acc ha _ e he; exact ha e he
  | cons x xs ih =>
    intro acc ha hx e he
    rw [List.foldl_cons] at he
    refine ih (jsSet acc x.1 x.2) ?_ (fun e' he' => hx e' (List.mem_cons_of_mem _ he')) e he
    intro e' he'
    rcases jsSet_entry_cases he' with h1 | h1
    · rw [h1]
      exact hx x (List.mem_cons_self _ _)
    · exact ha e' h1

lemma dupMastersFold_GInv {p : Project} (suffix lfold pfold : String) (rank : Nat → Nat)
    (hwfp : WFproj p) (hrk : RankOk p rank) :
    ∀ (ms : List Nat) (acc : Project × List (String × Nat)),
      (∀ m ∈ ms, m < p.nextId) → GInv p acc.1 → (∀ e ∈ acc.2, p.nextId ≤ e.2) →
      GInv p (ms.foldl (fun a m =>
        ((duplicateFullTree a.1 m suffix lfold pfold).1,
         (duplicateFullTree a.1 m suffix lfold pfold).2.foldl
           (fun a2 e => jsSet a2 e.1 e.2) a.2)) acc).1 ∧
      (∀ e ∈ (ms.foldl (fun a m =>
        ((duplicateFullTree a.1 m suffix lfold pfold).1,
         (duplicateFullTree a.1 m suffix lfold pfold).2.foldl
           (fun a2 e => jsSet a2 e.1 e.2) a.2)) acc).2, p.nextId ≤ e.2) := by
  intro ms
  induction ms with
  | nil => intro acc _ hg hv; exact ⟨hg, hv⟩
  | cons m ms ih =>
    intro acc hms hg hv
    rw [List.foldl_cons]
    have hstep := duplicateFullTree_GInv acc.1 m suffix lfold pfold rank hwfp hrk hg
      (hms m (List.mem_cons_self _ _))
    exact ih _ (fun x hx => hms x (List.mem_cons_of_mem _ hx)) hstep.1
      (jsSetFold_vals _ _ hv hstep.2)

lemma runLanguage_GInv {p : Project} {fs : List String} {masterIds : List Nat}
    {rows : List Row} {st : RunState} {lang : String} (rank : Nat → Nat)
    (hwfp : WFproj p) (hrk : RankOk p rank)
    (hms : ∀ m ∈ masterIds, m < p.nextId)
    (hg : GInv p st.proj) :
    GInv p (runLanguage fs masterIds rows st lang).proj := by
  unfold runLanguage
  dsimp only
  have hdup := dupMastersFold_GInv (langSuffixOf lang) (langLabelOf lang) "_PRECOMPS" rank
    hwfp hrk masterIds (st.proj, []) hms hg (by simp)
  exact applyRows_GInv hdup.2 rows _ hdup.1

lemma findComp_lt {p : Project} (hb : ∀ e ∈ p.items, e.1 < p.nextId) {nm : String} {c : Nat}
    (h : findComp p nm = some c) : c < p.nextId := by
  unfold findComp at h
  obtain ⟨e, he, heq⟩ := List.exists_of_findSome?_eq_some h
  split at heq
  · split at heq
    · cases heq
      exact hb e he
    · cases heq
  · cases heq

lemma resolveMasters_mem {p : Project} :
    ∀ (names : List String) (ids : List Nat), resolveMasters p names = some ids →
      ∀ m ∈ ids, ∃ nm, findComp p nm = some m := by
  intro names
  induction names with
  | nil =>
    intro ids h m hm
    have h2 : some ([] : List Nat) = some ids := h
    cases h2
    simp at hm
  | cons n ns ih =>
    intro ids h m hm
    simp only [resolveMasters, List.mapM_cons] at h
    cases hfc : findComp p n with
    | none => rw [hfc] at h; simp at h
    | some c =>
      rw [hfc] at h
      cases hrest : ns.mapM (findComp p) with
      | none => rw [hrest] at h; simp at h
      | some rest =>
        rw [hrest] at h
        simp at h
        rw [← h] at hm
        rcases List.mem_cons.mp hm with h1 | h1
        · exact ⟨n, by rw [hfc, h1]⟩
        · exact ih rest hrest m h1

lemma runLanguages_GInv {p : Project} {fs : List String} {masterIds : List Nat}
    {rows : List Row} (rank : Nat → Nat) (hwfp : WFproj p) (hrk : RankOk p rank)
    (hms : ∀ m ∈ masterIds, m < p.nextId) :
    ∀ (langs : List String) (st : RunState), GInv p st.proj →
      GInv p ((langs.foldl (runLanguage fs masterIds rows) st).proj) := by
  intro langs
  induction langs with
  | nil => intro st hg; exact hg
  | cons l ls ih =>
    intro st hg
    rw [List.foldl_cons]
    exact ih _ (runLanguage_GInv rank hwfp hrk hms hg)

/-- C2: a full multi-locale run leaves the original project untouched.
For every well-formed project whose composition reference graph is
acyclic (witnessed by a rank function), every file system and every
manifest, each item that existed before the run — in particular every
master composition and every layer and leaf value inside it — is
looked up unchanged after `runMain`: substitution only ever mutates
freshly created duplicates (and newly imported footage), because every
duplicate's references stay within the fresh id range. -/
theorem C2_frame (p : Project) (fs : List String) (csv : String) (rank : Nat → Nat)
    (hwf : WFproj p) (hrk : RankOk p rank) :
    ∀ id, id < p.nextId → lookupItem (runMain p fs csv).proj id = lookupItem p id := by
  intro id hid
  unfold runMain
  dsimp only
  by_cases hl : detectLanguages (parseCSV csv).headers = []
  · rw [if_pos hl]
  · rw [if_neg hl]
    cases hrm : resolveMasters p (collectMasters (parseCSV csv).rows) with
    | none => rfl
    | some masterIds =>
      have hms : ∀ m ∈ masterIds, m < p.nextId := by
        intro m hm
        obtain ⟨nm, hnm⟩ := resolveMasters_mem _ _ hrm m hm
        exact findComp_lt (fun e he => (hwf.2 e he).1) hnm
      have hg0 : GInv p p := by
        refine ⟨le_refl _, fun i _ => rfl, hwf.2, ?_⟩
        intro d hd s hs
        have hnone : lookupItem p d = none :=
          lookupItem_none_of_ge (fun e he => (hwf.2 e he).1) hd
        simp [layersOf, hnone, compSources] at hs
      have hrun := @runLanguages_GInv p fs masterIds (parseCSV csv).rows rank hwf hrk hms
        (detectLanguages (parseCSV csv).headers) ⟨p, ⟨0, 0, 0⟩, []⟩ hg0
      exact hrun.2.1 id hid

theorem C2_witness :
    lookupItem (runMain exProj [] exCSV).proj 0 = lookupItem exProj 0 :=
  C2_frame exProj [] exCSV exRank (by decide) (by decide) 0 (by decide)
